import Mathlib

/-!
kubeenv: context lister and selection UI.

A shallow embedding of `main.go` (package `main` of kubeenv).

Modelling conventions.

* A Go `string` is modelled as the sequence of its Unicode code points
  (`GoString = List Char`).  This covers every string that is valid UTF-8,
  which is what the Go library functions used here decode.
* The Go standard library (`strings`, `unicode`, `regexp`) is modelled after
  its documented behaviour, restricted to the calls the program makes.
* Slice indexing that panics when out of range in Go is modelled by `index`,
  which returns `none`; a function that may panic returns an `Option`.
* A subprocess is modelled by the result of `cmd.Output()`: either the
  captured standard output or the text of the error (`err.Error()`).
  The argument vectors of the subprocesses a step starts are returned next
  to its result.
* The terminal toolkit (bubbletea, bubbles, lipgloss) is an external
  collaborator: a rendered frame is kept symbolic (`Frame`), and the parts of
  the list widget which the program reads are fields of `list.Model`.
-/

namespace Kubeenv

/-- A Go string, as the sequence of its code points. -/
abbrev GoString := List Char

/-- Go slice indexing `xs[i]`: `none` stands for the run-time panic of an
index out of range. -/
def index {α : Type} (xs : List α) (i : Nat) : Option α := xs.get? i

/-! ## Standard library -/

namespace unicode

/-- Go `unicode.IsSpace`: the Latin-1 spaces `\t \n \v \f \r`, space, U+0085,
U+00A0, and beyond Latin-1 the code points with the `White_Space` property. -/
def IsSpace (r : Char) : Bool :=
  let n := r.toNat
  (9 ≤ n && n ≤ 13) || n == 32 || n == 0x85 || n == 0xA0 || n == 0x1680 ||
  (0x2000 ≤ n && n ≤ 0x200a) || n == 0x2028 || n == 0x2029 || n == 0x202f ||
  n == 0x205f || n == 0x3000

end unicode

namespace strings

/-- Go `strings.TrimLeftFunc`. -/
def TrimLeftFunc (s : GoString) (f : Char → Bool) : GoString := s.dropWhile f

/-- Go `strings.TrimRightFunc`. -/
def TrimRightFunc (s : GoString) (f : Char → Bool) : GoString :=
  (s.reverse.dropWhile f).reverse

/-- Go `strings.TrimSpace`: all leading and trailing white space, as defined
by Unicode, removed. -/
def TrimSpace (s : GoString) : GoString :=
  TrimRightFunc (TrimLeftFunc s unicode.IsSpace) unicode.IsSpace

/-- Go `strings.HasPrefix`. -/
def HasPrefix (s pre : GoString) : Bool := pre.isPrefixOf s

/-- Go `strings.Trim(s, cutset)`: all leading and trailing code points
contained in `cutset` removed. -/
def Trim (s cutset : GoString) : GoString :=
  TrimLeftFunc (TrimRightFunc s (fun c => cutset.contains c)) (fun c => cutset.contains c)

/-- Go `strings.Split(s, sep)` for a separator of one code point: the
substrings between the separators; a string without separator, the empty
string included, gives a single element. -/
def Split : GoString → Char → List GoString
  | [], _ => [[]]
  | c :: cs, sep =>
    if c = sep then [] :: Split cs sep
    else
      match Split cs sep with
      | [] => [[c]]
      | w :: ws => (c :: w) :: ws

end strings

namespace regexp

/-- The Perl class `\s` of Go regular expressions: `[\t\n\f\r ]`. -/
def isPerlSpace (c : Char) : Bool :=
  c == '\t' || c == '\n' || c == Char.ofNat 12 || c == '\r' || c == ' '

/-- Replacement of the matches of `\s+` in a string, scanning from the left.
The flag says that the previous code point belongs to the current match. -/
def replaceRuns (repl : GoString) : Bool → GoString → GoString
  | _, [] => []
  | inMatch, c :: cs =>
    if isPerlSpace c then
      if inMatch then replaceRuns repl true cs else repl ++ replaceRuns repl true cs
    else c :: replaceRuns repl false cs

/-- Go `space.ReplaceAllString(src, repl)` for `space = regexp.MustCompile("\\s+")`
and a replacement without `$`: every maximal run of `\s` is replaced. -/
def ReplaceAllString (src repl : GoString) : GoString := replaceRuns repl false src

end regexp

/-! ## Data model -/

/-- The Go type `context`; its field `namespace` is written `namespace_`,
the word being reserved. -/
structure context where
  name : GoString
  namespace_ : GoString
  selected : Bool
  deriving DecidableEq, Repr

/-- The Go type `item`. -/
structure item where
  title : GoString
  desc : GoString
  selected : Bool
  deriving DecidableEq, Repr

/-! ## Context lister -/

/-- The Go function `parse_line`. -/
def parse_line (line : GoString) : Option context :=
  let line := strings.TrimSpace line
  let line := regexp.ReplaceAllString line " ".toList
  -- Check for selection
  let (selected, line) :=
    if strings.HasPrefix line "*".toList then
      (true, strings.TrimSpace (strings.Trim line "*".toList))
    else
      (false, line)
  -- Check for namespace
  let namespace? : Option GoString :=
    if (strings.Split line ' ').length ≥ 4 then index (strings.Split line ' ') 3
    else some []
  namespace?.bind fun ns =>
  -- Add name
  (index (strings.Split line ' ') 0).bind fun name =>
  some { name := name, namespace_ := ns, selected := selected }

/-- The loop of `getContexts` over the lines of the output, appending to
`contexts`. -/
def getContexts.loop : List GoString → List context → Option (List context)
  | [], contexts => some contexts
  | line :: rest, contexts =>
    if line ≠ [] then
      (parse_line line).bind fun c => getContexts.loop rest (contexts ++ [c])
    else getContexts.loop rest contexts

/-- The Go function `getContexts`, given the result of `cmd.Output()` of the
listing subprocess: the records and the error (`none` for `nil`).  The line
printed to standard output on failure is not part of the result. -/
def getContexts (output : Except GoString GoString) :
    Option (List context × Option GoString) :=
  match output with
  | .error err => some ([], some err)
  | .ok stdout =>
    let stdout_lines := strings.Split stdout '\n'
    (getContexts.loop stdout_lines []).bind fun contexts => some (contexts, none)

/-! ## Terminal toolkit -/

namespace list

/-- The filter states of the list widget. -/
inductive FilterState where
  | Unfiltered
  | Filtering
  | FilterApplied
  deriving DecidableEq, Repr

/-- The list widget `list.Model` of the toolkit, reduced to what the program
reads and writes: the items, the items matching the filter, the filter state,
the index of the highlighted row and the width. -/
structure Model where
  items : List item
  filteredItems : List item
  filterState : FilterState
  index : Int
  width : Int
  deriving DecidableEq, Repr

/-- The widget's `VisibleItems`: the filtered items unless no filter is set. -/
def Model.VisibleItems (m : Model) : List item :=
  if m.filterState ≠ FilterState.Unfiltered then m.filteredItems else m.items

/-- The widget's `SelectedItem`: the highlighted item among the visible ones,
`none` (Go `nil`) when there is none. -/
def Model.SelectedItem (m : Model) : Option item :=
  let i := m.index
  let items := m.VisibleItems
  if i < 0 ∨ items.length = 0 ∨ (items.length : Int) ≤ i then none
  else items.get? i.toNat

/-- The widget's `SetWidth`. -/
def Model.SetWidth (m : Model) (v : Int) : Model := { m with width := v }

end list

namespace tea

/-- The messages of the event loop: a window resize, a key press given by the
text of `msg.String()`, or any other message. -/
inductive Msg where
  | WindowSizeMsg (Width Height : Int)
  | KeyMsg (key : GoString)
  | other (tag : Nat)
  deriving DecidableEq, Repr

/-- The commands a step returns: `nil`, `tea.Quit`, or a command of the
list widget. -/
inductive Cmd where
  | nil
  | Quit
  | other (tag : Nat)
  deriving DecidableEq, Repr

end tea

/-- A rendered frame: `quitTextStyle.Render(s)`, or a newline followed by
the view of the list widget. -/
inductive Frame where
  | quitText (s : GoString)
  | listView (l : list.Model)
  deriving DecidableEq, Repr

/-! ## Selection UI -/

/-- The Go type `model`. -/
structure model where
  list : list.Model
  choice : GoString
  error : GoString
  quitting : Bool
  deriving DecidableEq, Repr

/-- The argument vector of the activation subprocess for a context name. -/
def useContextArgv (title : GoString) : List GoString :=
  ["kubectl".toList, "config".toList, "use-context".toList, title]

/-- The Go method `model.Update`.  `Output` gives the result of `cmd.Output()`
for an argument vector and `listUpdate` is the `Update` of the list widget.
The result holds the new model, the command, and the argument vectors of the
subprocesses started by the step. -/
def model.Update (Output : List GoString → Except GoString GoString)
    (listUpdate : list.Model → tea.Msg → list.Model × tea.Cmd)
    (m : model) (msg : tea.Msg) : (model × tea.Cmd) × List (List GoString) :=
  match msg with
  | .WindowSizeMsg Width _ =>
    (({ m with list := m.list.SetWidth Width }, tea.Cmd.nil), [])
  | .KeyMsg keypress =>
    if keypress = "ctrl+c".toList then
      (({ m with quitting := true }, tea.Cmd.Quit), [])
    else if keypress = "enter".toList then
      match m.list.SelectedItem with
      | some i =>
        let argv := useContextArgv i.title
        let m1 : model :=
          match Output argv with
          | .error err => { m with error := err }
          | .ok _ => m
        (({ m1 with choice := i.title }, tea.Cmd.Quit), [argv])
      | none => ((m, tea.Cmd.Quit), [])
    else
      let r := listUpdate m.list msg
      (({ m with list := r.1 }, r.2), [])
  | .other _ =>
    let r := listUpdate m.list msg
    (({ m with list := r.1 }, r.2), [])

/-- The Go method `model.View`. -/
def model.View (m : model) : Frame :=
  if m.choice ≠ [] then
    Frame.quitText ("Activating Context: ".toList ++ m.choice)
  else if m.error ≠ [] then
    Frame.quitText m.error
  else if m.quitting then
    Frame.quitText "Good bye".toList
  else
    Frame.listView m.list

/-! ## Notions of the specification -/

/-- The value of `line` in `parse_line` after normalization: trimmed, and
the runs of `\s` replaced by one space. -/
def normalized (line : GoString) : GoString :=
  regexp.ReplaceAllString (strings.TrimSpace line) " ".toList

/-- The value of `line` in `parse_line` after normalization and marker
removal. -/
def unmarked (line : GoString) : GoString :=
  if strings.HasPrefix (normalized line) "*".toList then
    strings.TrimSpace (strings.Trim (normalized line) "*".toList)
  else normalized line

/-- The fields `parse_line` extracts from: the normalized line without its
marker, split on single spaces. -/
def lineFields (line : GoString) : List GoString :=
  strings.Split (unmarked line) ' '

/-- The whitespace-separated tokens of a string: the maximal runs of code
points that are not white space.  `cur` is the token being read. -/
def fieldsFrom : GoString → GoString → List GoString
  | cur, [] => if cur = [] then [] else [cur]
  | cur, c :: cs =>
    if unicode.IsSpace c then
      if cur = [] then fieldsFrom [] cs else cur :: fieldsFrom [] cs
    else fieldsFrom (cur ++ [c]) cs

/-- The whitespace-separated fields of a string. -/
def fields (s : GoString) : List GoString := fieldsFrom [] s

/-- A line has a marker when its first code point that is not white space
is `*`. -/
def hasMarker (line : GoString) : Bool :=
  (line.dropWhile unicode.IsSpace).head? == some '*'

/-- The text after the single leading marker of a line, when it has one. -/
def afterMarker (line : GoString) : Option GoString :=
  match line.dropWhile unicode.IsSpace with
  | c :: rest => if c = '*' then some rest else none
  | [] => none

/-- A line is blank when it is empty or made of white space only. -/
def blank (line : GoString) : Bool := line.all unicode.IsSpace

/-- Every white space code point of the string is matched by `\s`, that is,
is one of space, `\t`, `\n`, `\f`, `\r`. -/
def plainSpaced (s : GoString) : Prop :=
  ∀ c ∈ s, unicode.IsSpace c = true → regexp.isPerlSpace c = true

/-- The string made of a run of white space followed by tokens, each with
the run of white space that follows it. -/
def layout : GoString → List (GoString × GoString) → GoString
  | lead, [] => lead
  | lead, (t, w) :: rest => lead ++ (t ++ layout w rest)

/-- The tokens are non-empty and free of white space, the runs after them are
made of `\s` code points, and only the last run may be empty. -/
def Laid : List (GoString × GoString) → Prop
  | [] => True
  | (t, w) :: rest =>
    t ≠ [] ∧ (∀ c ∈ t, unicode.IsSpace c = false) ∧
    (∀ c ∈ w, regexp.isPerlSpace c = true) ∧ (rest ≠ [] → w ≠ []) ∧ Laid rest

/-- The tokens and the runs between them, without the outer white space. -/
def core : List (GoString × GoString) → GoString
  | [] => []
  | [(t, _)] => t
  | (t, w) :: p :: rest => t ++ (w ++ core (p :: rest))

/-- The tokens joined by single spaces. -/
def joined : List GoString → GoString
  | [] => []
  | [t] => t
  | t :: u :: ts => t ++ ' ' :: joined (u :: ts)

/-- The model before any key: browsing a list, nothing chosen. -/
def browsing (l : list.Model) : model :=
  { list := l, choice := [], error := [], quitting := false }

/-- A list widget showing the given items, the first one highlighted. -/
def listOf (items : List item) : list.Model :=
  { items := items, filteredItems := [], filterState := list.FilterState.Unfiltered,
    index := 0, width := 20 }

/-- A list widget update that leaves the widget alone. -/
def idleList (l : list.Model) (_ : tea.Msg) : list.Model × tea.Cmd := (l, tea.Cmd.nil)

/-- A model browsing the single entry `ctx-a`, which is highlighted. -/
def browsingCtxA : model :=
  browsing (listOf [⟨"ctx-a".toList, "ns-a".toList, false⟩])

/-- A model browsing two entries with a filter applied that keeps the second
one, which is the highlighted entry. -/
def browsingFiltered : model :=
  browsing
    { items := [⟨"ctx-a".toList, [], true⟩, ⟨"ctx-b".toList, [], false⟩],
      filteredItems := [⟨"ctx-b".toList, [], false⟩],
      filterState := list.FilterState.FilterApplied, index := 0, width := 80 }

/-- An activation subprocess that fails with `exit status 1`. -/
def failingOutput (_ : List GoString) : Except GoString GoString :=
  .error "exit status 1".toList

/-- An activation subprocess that succeeds with an empty output. -/
def succeedingOutput (_ : List GoString) : Except GoString GoString := .ok []

/-! ## List entries and their rendering -/

/-- The Go method `item.FilterValue`. -/
def item.FilterValue (i : item) : GoString := i.title

/-- The widget's `Index`: the index of the highlighted row. -/
def list.Model.Index (m : list.Model) : Int := m.index

namespace lipgloss

/-- The toolkit's `Border`: the text drawn on each side and corner. -/
structure Border where
  Top : GoString
  Bottom : GoString
  Left : GoString
  Right : GoString
  TopLeft : GoString
  TopRight : GoString
  BottomLeft : GoString
  BottomRight : GoString
  deriving DecidableEq, Repr

/-- The toolkit's `AdaptiveColor`. -/
structure AdaptiveColor where
  Light : GoString
  Dark : GoString
  deriving DecidableEq, Repr

/-- The toolkit's `Style`, reduced to the properties the item styles set: the
left padding, the foreground colour, and the border with the sides it is
drawn on. -/
structure Style where
  paddingLeft : Int
  foreground : Option AdaptiveColor
  border : Option Border
  borderTop : Bool
  borderRight : Bool
  borderBottom : Bool
  borderLeft : Bool
  deriving DecidableEq, Repr

/-- The toolkit's `NewStyle()`. -/
def NewStyle : Style :=
  { paddingLeft := 0, foreground := none, border := none, borderTop := false,
    borderRight := false, borderBottom := false, borderLeft := false }

/-- The toolkit's `Style.PaddingLeft`. -/
def Style.PaddingLeft (s : Style) (i : Int) : Style := { s with paddingLeft := i }

/-- The toolkit's `Style.Foreground`. -/
def Style.Foreground (s : Style) (c : AdaptiveColor) : Style := { s with foreground := some c }

/-- The toolkit's `Style.Border` with the four sides given (top, right,
bottom, left). -/
def Style.Border (s : Style) (b : Border) (top right bottom left : Bool) : Style :=
  { s with border := some b, borderTop := top, borderRight := right,
           borderBottom := bottom, borderLeft := left }

end lipgloss

/-- The Go variable `starBorder`. -/
def starBorder : lipgloss.Border :=
  { Top := "*".toList, Bottom := "*".toList, Left := "*".toList, Right := "*".toList,
    TopLeft := "*".toList, TopRight := "*".toList, BottomLeft := "*".toList,
    BottomRight := "*".toList }

/-- The Go variable `itemStyle`. -/
def itemStyle : lipgloss.Style := lipgloss.NewStyle.PaddingLeft 4

/-- The Go variable `selectedItemStyle`. -/
def selectedItemStyle : lipgloss.Style :=
  (lipgloss.NewStyle.PaddingLeft 2).Foreground ⟨"#179299 \t".toList, "#94e2d5".toList⟩

/-- The Go variable `activeItemStyle`. -/
def activeItemStyle : lipgloss.Style :=
  (lipgloss.NewStyle.PaddingLeft 3).Border starBorder false false false true

/-- The Go variable `activeSelectedItemStyle`. -/
def activeSelectedItemStyle : lipgloss.Style :=
  ((lipgloss.NewStyle.PaddingLeft 1).Foreground
    ⟨"#179299 \t".toList, "#94e2d5".toList⟩).Border starBorder false false false true

/-- A styled text `style.Render(text)`, kept symbolic. -/
structure Rendered where
  style : lipgloss.Style
  text : GoString
  deriving DecidableEq, Repr

/-- The value of a Go `int` (64 bits, two's complement) holding the
mathematical integer `n`: arithmetic on `int` wraps around. -/
def wrapInt64 (n : Int) : Int := (n + 2 ^ 63) % 2 ^ 64 - 2 ^ 63

/-- The text `fmt.Sprintf("%d. %s", index+1, title)` of a row; the sum
`index+1` is computed on `int` and wraps. -/
def rowText (index : Int) (title : GoString) : GoString :=
  (toString (wrapInt64 (index + 1))).toList ++ ". ".toList ++ title

/-- The Go method `itemDelegate.Render` for a list item of type `item` (the
only type the program puts in the list): what it writes to `w`. -/
def itemDelegate.Render (m : list.Model) (index : Int) (listItem : item) : Rendered :=
  let i := listItem
  let str := rowText index i.title
  let fn : GoString → Rendered := fun s => ⟨itemStyle, s⟩
  let fn : GoString → Rendered :=
    if index = m.Index then fun s => ⟨selectedItemStyle, "> ".toList ++ s⟩ else fn
  let fn : GoString → Rendered :=
    if i.selected then fun s => ⟨activeItemStyle, s⟩ else fn
  let fn : GoString → Rendered :=
    if i.selected ∧ index = m.Index then fun s => ⟨activeSelectedItemStyle, "> ".toList ++ s⟩
    else fn
  fn str

/-- The loop of `main` over the records, appending to `items`. -/
def main.loop : List context → List item → List item
  | [], items => items
  | context :: rest, items =>
    main.loop rest
      (items ++ [{ title := context.name, desc := context.namespace_,
                   selected := context.selected }])

/-- The list entries `main` builds from the records of `getContexts`. -/
def main.items (contexts : List context) : List item := main.loop contexts []

/-- The rendering treatment of the specification, looked up from the two
flags: the style and the cursor prefix of the row. -/
def treatment (isHighlighted isSelected : Bool) : lipgloss.Style × GoString :=
  match isHighlighted, isSelected with
  | false, false => (itemStyle, [])
  | true, false => (selectedItemStyle, "> ".toList)
  | false, true => (activeItemStyle, [])
  | true, true => (activeSelectedItemStyle, "> ".toList)

/-- A style has the star border treatment when it draws `starBorder`, on the
left side. -/
def hasStarBorder (s : lipgloss.Style) : Bool :=
  s.border == some starBorder && s.borderLeft

/-- The tokens are non-empty and free of white space, the runs after them are
made of spaces and tabs, and only the last run may be empty. -/
def SpaceTabLaid : List (GoString × GoString) → Prop
  | [] => True
  | (t, w) :: rest =>
    t ≠ [] ∧ (∀ c ∈ t, unicode.IsSpace c = false) ∧
    (∀ c ∈ w, c = ' ' ∨ c = '\t') ∧ (rest ≠ [] → w ≠ []) ∧ SpaceTabLaid rest

/-- The tokens, each followed by a single space except the last. -/
def singleSpaced : List GoString → List (GoString × GoString)
  | [] => []
  | [t] => [(t, [])]
  | t :: u :: ts => (t, [' ']) :: singleSpaced (u :: ts)

/-- A model browsing the entries built from the single record that
`parse_line` gives for a line made of a carriage return. -/
def browsingEmptyName : model :=
  browsing (listOf (main.items [⟨[], [], false⟩]))

/-- A model that has been cancelled, with an empty list. -/
def cancelledEmpty : model :=
  { list := listOf [], choice := [], error := [], quitting := true }

/-- A model browsing with a filter applied that matches no entry. -/
def browsingNoMatch : model :=
  browsing
    { items := [⟨"ctx-a".toList, [], true⟩, ⟨"ctx-b".toList, [], false⟩],
      filteredItems := [], filterState := list.FilterState.FilterApplied,
      index := 0, width := 80 }

/-! ## Event loop of the toolkit -/

/-- What the event loop of the toolkit receives on its message channel: a
message that it passes to `Update`, or the `QuitMsg` that the command
`tea.Quit` produces. -/
inductive tea.Received where
  | msg (m : tea.Msg)
  | QuitMsg
  deriving DecidableEq, Repr

/-- The event loop of the toolkit, on the sequence of what it receives: a
`QuitMsg` ends the loop, any other message is passed to `Update`. The command
a step returns is run apart from the loop, so the `QuitMsg` of a `tea.Quit`
is received after the step that returned it, and after whatever was sent to
the channel before it. The result is the last model and the argument vectors
of the subprocesses started, in order. -/
def eventLoop (Output : List GoString → Except GoString GoString)
    (listUpdate : list.Model → tea.Msg → list.Model × tea.Cmd) :
    model → List tea.Received → model × List (List GoString)
  | m, [] => (m, [])
  | m, .QuitMsg :: _ => (m, [])
  | m, .msg x :: rest =>
    ((eventLoop Output listUpdate (model.Update Output listUpdate m x).1.1 rest).1,
     (model.Update Output listUpdate m x).2 ++
       (eventLoop Output listUpdate (model.Update Output listUpdate m x).1.1 rest).2)

/-! ## Selection UI: confirm and cancel -/

/-- C2 (evaluation of the code): with the entry `ctx-a` highlighted and the
activation subprocess failing with `exit status 1`, the model returned on
`enter` stores the error, yet its view is the text
`Activating Context: ctx-a` and not the error text. -/
theorem Update_enter_failure_view :
    (model.Update failingOutput idleList browsingCtxA
      (tea.Msg.KeyMsg "enter".toList)).1.1.error = "exit status 1".toList ∧
    (model.Update failingOutput idleList browsingCtxA
      (tea.Msg.KeyMsg "enter".toList)).1.1.View
      = Frame.quitText "Activating Context: ctx-a".toList ∧
    (model.Update failingOutput idleList browsingCtxA
      (tea.Msg.KeyMsg "enter".toList)).1.1.View
      ≠ Frame.quitText "exit status 1".toList := by
  decide

/-- After a failed activation of an entry with a non-empty title, the model
stores the error text and its view is the activation text of the entry. -/
theorem Update_enter_failure
    (Output : List GoString → Except GoString GoString)
    (listUpdate : list.Model → tea.Msg → list.Model × tea.Cmd)
    (m : model) (i : item) (e : GoString)
    (hsel : m.list.SelectedItem = some i)
    (hfail : Output (useContextArgv i.title) = .error e)
    (htitle : i.title ≠ []) :
    (model.Update Output listUpdate m (tea.Msg.KeyMsg "enter".toList)).1.1.error = e ∧
    (model.Update Output listUpdate m (tea.Msg.KeyMsg "enter".toList)).1.1.View
      = Frame.quitText ("Activating Context: ".toList ++ i.title) := by
  have hne : ¬ ("enter".toList = "ctrl+c".toList) := by decide
  simp [model.Update, model.View, hne, hsel, hfail, htitle]

/-- C3: in the browsing state (choice and error empty), when the highlighted
entry is `i` and the activation subprocess succeeds, the model returned on
`enter` has choice `i.title` and an empty error. -/
theorem Update_enter_success
    (Output : List GoString → Except GoString GoString)
    (listUpdate : list.Model → tea.Msg → list.Model × tea.Cmd)
    (m : model) (i : item) (out : GoString)
    (_hchoice : m.choice = []) (herror : m.error = [])
    (hsel : m.list.SelectedItem = some i)
    (hok : Output (useContextArgv i.title) = .ok out) :
    (model.Update Output listUpdate m (tea.Msg.KeyMsg "enter".toList)).1.1.choice = i.title ∧
    (model.Update Output listUpdate m (tea.Msg.KeyMsg "enter".toList)).1.1.error = [] := by
  have hne : ¬ ("enter".toList = "ctrl+c".toList) := by decide
  simp [model.Update, hne, hsel, hok, herror]

/-- Witness of C3: the entry `ctx-a` gives the choice `ctx-a`. -/
theorem Update_enter_success_witness :
    (model.Update succeedingOutput idleList browsingCtxA
      (tea.Msg.KeyMsg "enter".toList)).1.1.choice = "ctx-a".toList ∧
    (model.Update succeedingOutput idleList browsingCtxA
      (tea.Msg.KeyMsg "enter".toList)).1.1.error = [] :=
  Update_enter_success succeedingOutput idleList browsingCtxA
    ⟨"ctx-a".toList, "ns-a".toList, false⟩ [] rfl rfl (by decide) rfl

/-- C7: in the browsing state, whatever the list widget holds, `ctrl+c`
returns the quit command and a model with `quitting` set, the choice, the
error and the list unchanged; no subprocess is started, and the view of the
result is the farewell text. -/
theorem Update_cancel
    (Output : List GoString → Except GoString GoString)
    (listUpdate : list.Model → tea.Msg → list.Model × tea.Cmd)
    (m : model) (hchoice : m.choice = []) (herror : m.error = []) :
    (model.Update Output listUpdate m (tea.Msg.KeyMsg "ctrl+c".toList)).1.1.quitting = true ∧
    (model.Update Output listUpdate m (tea.Msg.KeyMsg "ctrl+c".toList)).1.2 = tea.Cmd.Quit ∧
    (model.Update Output listUpdate m (tea.Msg.KeyMsg "ctrl+c".toList)).1.1.choice = m.choice ∧
    (model.Update Output listUpdate m (tea.Msg.KeyMsg "ctrl+c".toList)).1.1.error = m.error ∧
    (model.Update Output listUpdate m (tea.Msg.KeyMsg "ctrl+c".toList)).1.1.list = m.list ∧
    (model.Update Output listUpdate m (tea.Msg.KeyMsg "ctrl+c".toList)).2 = [] ∧
    (model.Update Output listUpdate m (tea.Msg.KeyMsg "ctrl+c".toList)).1.1.View
      = Frame.quitText "Good bye".toList := by
  simp [model.Update, model.View, hchoice, herror]

/-- Witness of C7: cancelling while a filter is applied and the second of
the filtered entries is highlighted, with a subprocess that would fail. -/
theorem Update_cancel_witness :
    (model.Update failingOutput idleList browsingFiltered
      (tea.Msg.KeyMsg "ctrl+c".toList)).1.1.quitting = true ∧
    (model.Update failingOutput idleList browsingFiltered
      (tea.Msg.KeyMsg "ctrl+c".toList)).2 = [] ∧
    (model.Update failingOutput idleList browsingFiltered
      (tea.Msg.KeyMsg "ctrl+c".toList)).1.1.View = Frame.quitText "Good bye".toList :=
  have h := Update_cancel failingOutput idleList browsingFiltered rfl rfl
  ⟨h.1, h.2.2.2.2.2.1, h.2.2.2.2.2.2⟩

/-! ## Library lemmas -/

theorem Split_ne_nil (s : GoString) (sep : Char) : strings.Split s sep ≠ [] := by
  cases s with
  | nil => simp [strings.Split]
  | cons c cs =>
    simp only [strings.Split]
    split_ifs
    · simp
    · cases strings.Split cs sep <;> simp

theorem dropWhile_head_not {p : Char → Bool} :
    ∀ (l : GoString) (c : Char) (cs : GoString), l.dropWhile p = c :: cs → p c = false := by
  intro l
  induction l with
  | nil => intro c cs h; simp at h
  | cons a l ih =>
    intro c cs h
    by_cases ha : p a = true
    · rw [List.dropWhile_cons_of_pos ha] at h
      exact ih c cs h
    · rw [List.dropWhile_cons_of_neg ha] at h
      cases h
      simpa using ha

theorem TrimRightFunc_nil (p : Char → Bool) : strings.TrimRightFunc [] p = [] := rfl

theorem TrimRightFunc_cons (p : Char → Bool) (c : Char) (cs : GoString) :
    strings.TrimRightFunc (c :: cs) p =
      if strings.TrimRightFunc cs p = [] ∧ p c = true then []
      else c :: strings.TrimRightFunc cs p := by
  simp only [strings.TrimRightFunc, List.reverse_cons, List.dropWhile_append,
    List.reverse_eq_nil_iff, List.isEmpty_eq_true]
  by_cases h : List.dropWhile p cs.reverse = []
  · by_cases hc : p c = true <;> simp [h, hc]
  · simp [h]

theorem TrimRightFunc_all (p : Char → Bool) :
    ∀ w : GoString, (∀ c ∈ w, p c = true) → strings.TrimRightFunc w p = [] := by
  intro w
  induction w with
  | nil => intro _; rfl
  | cons a w ih =>
    intro h
    rw [TrimRightFunc_cons, ih (fun c hc => h c (List.mem_cons_of_mem _ hc))]
    simp [h a (List.mem_cons_self _ _)]

theorem TrimRightFunc_append_of_ne_nil (p : Char → Bool) (x : GoString)
    (hx : strings.TrimRightFunc x p ≠ []) :
    ∀ a : GoString, strings.TrimRightFunc (a ++ x) p = a ++ strings.TrimRightFunc x p := by
  intro a
  induction a with
  | nil => rfl
  | cons c a ih =>
    rw [List.cons_append, TrimRightFunc_cons, ih]
    simp [hx]

theorem TrimRightFunc_cons_of_not (p : Char → Bool) (c : Char) (cs : GoString)
    (hc : p c = false) :
    strings.TrimRightFunc (c :: cs) p = c :: strings.TrimRightFunc cs p := by
  rw [TrimRightFunc_cons]
  simp [hc]

theorem TrimRightFunc_of_getLast (p : Char → Bool) :
    ∀ (s : GoString) (c : Char), s.getLast? = some c → p c = false →
      strings.TrimRightFunc s p = s := by
  intro s
  induction s with
  | nil => intro c h; simp at h
  | cons a s ih =>
    intro c h hc
    cases s with
    | nil =>
      simp at h
      subst h
      rw [TrimRightFunc_cons_of_not p a [] hc, TrimRightFunc_nil]
    | cons b s =>
      rw [List.getLast?_cons_cons] at h
      rw [TrimRightFunc_cons, ih c h hc]
      simp

theorem isPerlSpace_IsSpace (c : Char) (h : regexp.isPerlSpace c = true) :
    unicode.IsSpace c = true := by
  simp only [regexp.isPerlSpace, Bool.or_eq_true, beq_iff_eq] at h
  rcases h with (((h | h) | h) | h) | h <;> subst h <;> decide

theorem not_isPerlSpace_of_not_IsSpace (c : Char) (h : unicode.IsSpace c = false) :
    regexp.isPerlSpace c = false := by
  cases hp : regexp.isPerlSpace c
  · rfl
  · rw [isPerlSpace_IsSpace c hp] at h
    cases h

theorem HasPrefix_star (s : GoString) :
    strings.HasPrefix s "*".toList = (s.head? == some '*') := by
  cases s with
  | nil => rfl
  | cons c cs =>
    simp only [strings.HasPrefix, String.toList, List.isPrefixOf, List.head?_cons,
      Bool.and_true]
    by_cases h : c = '*'
    · subst h; rfl
    · have h1 : ('*' == c) = false := by simpa using fun e => h e.symm
      have h2 : (some c == some '*') = false := by simpa using h
      rw [h1, h2]

/-- The normalized line starts with the first code point of the line that
is not white space. -/
theorem head?_normalized (line : GoString) :
    (normalized line).head? = (line.dropWhile unicode.IsSpace).head? := by
  simp only [normalized, strings.TrimSpace, strings.TrimLeftFunc, regexp.ReplaceAllString]
  cases hd : line.dropWhile unicode.IsSpace with
  | nil => simp [TrimRightFunc_nil, regexp.replaceRuns]
  | cons c cs =>
    have hc := dropWhile_head_not line c cs hd
    rw [TrimRightFunc_cons_of_not _ c cs hc]
    simp [regexp.replaceRuns, not_isPerlSpace_of_not_IsSpace c hc]

/-- The marker test of `parse_line` is the test on the first code point of
the line that is not white space. -/
theorem HasPrefix_normalized (line : GoString) :
    strings.HasPrefix (normalized line) "*".toList = hasMarker line := by
  rw [HasPrefix_star, head?_normalized, hasMarker]

/-- The result of `parse_line` in terms of the fields it extracts from. -/
theorem parse_line_eq (line : GoString) :
    parse_line line =
      (if (lineFields line).length ≥ 4 then index (lineFields line) 3 else some []).bind
        fun ns => (index (lineFields line) 0).bind
          fun name => some ⟨name, ns, hasMarker line⟩ := by
  rw [← HasPrefix_normalized]
  by_cases h : strings.HasPrefix
      (regexp.ReplaceAllString (strings.TrimSpace line) [' ']) ['*'] = true
  · simp [parse_line, lineFields, unmarked, normalized, h]
  · simp [parse_line, lineFields, unmarked, normalized, h]

theorem index_zero_of_ne_nil {α : Type} (xs : List α) (h : xs ≠ []) :
    ∃ x, index xs 0 = some x ∧ xs.head? = some x := by
  cases xs with
  | nil => exact absurd rfl h
  | cons x xs => exact ⟨x, rfl, rfl⟩

theorem index_of_lt {α : Type} (xs : List α) (i : Nat) (h : i < xs.length) :
    ∃ x, index xs i = some x := by
  refine ⟨xs.get ⟨i, h⟩, ?_⟩
  simp [index, List.get?_eq_get h]

theorem parse_line_some (line : GoString) : ∃ c, parse_line line = some c := by
  rw [parse_line_eq]
  obtain ⟨f0, h0, _⟩ := index_zero_of_ne_nil (lineFields line) (Split_ne_nil _ _)
  by_cases h4 : (lineFields line).length ≥ 4
  · obtain ⟨f3, h3⟩ := index_of_lt (lineFields line) 3 h4
    exact ⟨⟨f0, f3, hasMarker line⟩, by simp [h4, h3, h0]⟩
  · exact ⟨⟨f0, [], hasMarker line⟩, by simp [h4, h0]⟩

/-- The loop of `getContexts` appends, for every non-empty line in order,
the record `parse_line` gives for it. -/
theorem getContexts_loop_spec :
    ∀ (lines : List GoString) (acc : List context),
      ∃ recs, getContexts.loop lines acc = some (acc ++ recs) ∧
        recs.map some = (lines.filter (fun l => decide (l ≠ []))).map parse_line := by
  intro lines
  induction lines with
  | nil => intro acc; exact ⟨[], by simp [getContexts.loop], rfl⟩
  | cons l lines ih =>
    intro acc
    by_cases hl : l = []
    · obtain ⟨recs, h1, h2⟩ := ih acc
      exact ⟨recs, by simp [getContexts.loop, hl, h1], by simp [hl, h2]⟩
    · obtain ⟨c, hc⟩ := parse_line_some l
      obtain ⟨recs, h1, h2⟩ := ih (acc ++ [c])
      refine ⟨c :: recs, ?_, ?_⟩
      · simp [getContexts.loop, hl, hc, h1]
      · simp [hl, hc, h2]

/-! ## Context lister: `parse_line` -/

/-- C8: `parse_line` returns a record for every input string, the empty
string, white space and runs of `*` included: the list of fields it indexes
is never empty, so the access to field 0 is in range, and the access to
field 3 is in range whenever its guard (at least 4 fields) holds. -/
theorem parse_line_total (line : GoString) :
    (∃ c, parse_line line = some c) ∧
    (∃ f0, index (lineFields line) 0 = some f0) ∧
    ((lineFields line).length ≥ 4 → ∃ f3, index (lineFields line) 3 = some f3) := by
  refine ⟨parse_line_some line, ?_, fun h => index_of_lt _ 3 h⟩
  obtain ⟨f0, h0, _⟩ := index_zero_of_ne_nil (lineFields line) (Split_ne_nil _ _)
  exact ⟨f0, h0⟩

/-- The degenerate inputs named in C8: the empty string, white space only,
stars only, and a single field. -/
theorem parse_line_degenerate :
    parse_line [] = some ⟨[], [], false⟩ ∧
    parse_line " \t ".toList = some ⟨[], [], false⟩ ∧
    parse_line "***".toList = some ⟨[], [], true⟩ ∧
    parse_line "ctx".toList = some ⟨"ctx".toList, [], false⟩ := by
  decide

/-- C6: for a line without a marker, that is, whose first code point that is
not white space is not `*` (or which has none), `parse_line` returns a record
with `selected = false`. -/
theorem parse_line_no_marker (line : GoString) (h : hasMarker line = false) :
    ∃ c, parse_line line = some c ∧ c.selected = false := by
  obtain ⟨c, hc⟩ := parse_line_some line
  refine ⟨c, hc, ?_⟩
  rw [parse_line_eq] at hc
  cases hn : (if (lineFields line).length ≥ 4 then index (lineFields line) 3 else some [])
    with
  | none => rw [hn] at hc; cases hc
  | some ns =>
    rw [hn] at hc
    cases h0 : index (lineFields line) 0 with
    | none => rw [h0] at hc; cases hc
    | some name =>
      rw [h0] at hc
      simp only [Option.some_bind, Option.some.injEq] at hc
      rw [← hc]
      exact h

/-- Witness of C6: a line without marker, with leading white space. -/
theorem parse_line_no_marker_witness :
    hasMarker "  ctx-b cluster-b user-b".toList = false ∧
    ∃ c, parse_line "  ctx-b cluster-b user-b".toList = some c ∧ c.selected = false :=
  ⟨by decide, parse_line_no_marker "  ctx-b cluster-b user-b".toList (by decide)⟩

/-- C9: for a line without a marker whose normalized form splits on single
spaces into the fields `f0 :: rest`, `parse_line` returns the name `f0`, as
its namespace field 3 when there is one (later fields are ignored) and the
empty string otherwise, and `selected = false`. -/
theorem parse_line_positional (line f0 : GoString) (rest : List GoString)
    (hm : hasMarker line = false)
    (hs : strings.Split (normalized line) ' ' = f0 :: rest) :
    parse_line line = some ⟨f0, ((f0 :: rest).get? 3).getD [], false⟩ := by
  have hf : lineFields line = f0 :: rest := by
    rw [lineFields, unmarked, HasPrefix_normalized, hm]
    simpa using hs
  rw [parse_line_eq, hf, hm]
  by_cases h4 : (f0 :: rest).length ≥ 4
  · obtain ⟨f3, h3⟩ := index_of_lt (f0 :: rest) 3 h4
    have h3b : (f0 :: rest).get? 3 = some f3 := h3
    simp only [h4, if_true, h3, h3b]
    rfl
  · have h3 : (f0 :: rest).get? 3 = none := by
      apply List.get?_eq_none.mpr
      omega
    simp only [h4, if_false, h3]
    rfl

/-- Witness of C9: five fields, the fifth is ignored. -/
theorem parse_line_positional_witness :
    parse_line "ctx-c  cluster-c\tuser-c ns-c extra".toList
      = some ⟨"ctx-c".toList, "ns-c".toList, false⟩ :=
  parse_line_positional "ctx-c  cluster-c\tuser-c ns-c extra".toList "ctx-c".toList
    ["cluster-c".toList, "user-c".toList, "ns-c".toList, "extra".toList]
    (by decide) (by decide)

/-- C5: for a line with fewer than 4 fields after normalization and marker
removal, `parse_line` returns a record whose namespace is empty and whose
name is field 0. -/
theorem parse_line_short (line : GoString) (h : (lineFields line).length < 4) :
    ∃ f0, (lineFields line).head? = some f0 ∧
      parse_line line = some ⟨f0, [], hasMarker line⟩ := by
  obtain ⟨f0, h0, hh⟩ := index_zero_of_ne_nil (lineFields line) (Split_ne_nil _ _)
  refine ⟨f0, hh, ?_⟩
  have h4 : ¬ (lineFields line).length ≥ 4 := by omega
  rw [parse_line_eq]
  simp [h4, h0]

/-- Witness of C5: `ctx-b cluster-b user-b` has three fields and gives the
name `ctx-b`, an empty namespace and `selected = false`. -/
theorem parse_line_short_witness :
    (lineFields "ctx-b cluster-b user-b".toList).length < 4 ∧
    (∃ f0, (lineFields "ctx-b cluster-b user-b".toList).head? = some f0 ∧
      parse_line "ctx-b cluster-b user-b".toList
        = some ⟨f0, [], hasMarker "ctx-b cluster-b user-b".toList⟩) ∧
    parse_line "ctx-b cluster-b user-b".toList = some ⟨"ctx-b".toList, [], false⟩ :=
  ⟨by decide, parse_line_short "ctx-b cluster-b user-b".toList (by decide), by decide⟩

/-! ## Context lister: `getContexts` -/

/-- C4 as stated fails: the output `ctx-a`, newline, one space, newline,
`ctx-b` has two non-blank lines, `ctx-a` and `ctx-b`, and three records: the
line made of one space is parsed too, and the second record is its parse,
not the parse of the second non-blank line. -/
theorem getContexts_space_line_record :
    getContexts (.ok "ctx-a\n \nctx-b".toList)
      = some ([⟨"ctx-a".toList, [], false⟩, ⟨[], [], false⟩, ⟨"ctx-b".toList, [], false⟩],
          none) ∧
    (strings.Split "ctx-a\n \nctx-b".toList '\n').filter (fun l => !blank l)
      = ["ctx-a".toList, "ctx-b".toList] ∧
    ((strings.Split "ctx-a\n \nctx-b".toList '\n').filter (fun l => !blank l)).map parse_line
      = [some ⟨"ctx-a".toList, [], false⟩, some ⟨"ctx-b".toList, [], false⟩] := by
  decide

/-- C4 amended: when the listing subprocess succeeds, `getContexts` returns
without error the records `parse_line` gives for the non-empty lines of the
output split on newline, in the same order: as many records as non-empty
lines, the i-th record being the parse of the i-th non-empty line. -/
theorem getContexts_records (stdout : GoString) :
    ∃ recs, getContexts (.ok stdout) = some (recs, none) ∧
      recs.map some
        = ((strings.Split stdout '\n').filter (fun l => decide (l ≠ []))).map parse_line ∧
      recs.length = ((strings.Split stdout '\n').filter (fun l => decide (l ≠ []))).length := by
  obtain ⟨recs, h1, h2⟩ := getContexts_loop_spec (strings.Split stdout '\n') []
  refine ⟨recs, ?_, h2, ?_⟩
  · simp only [List.nil_append] at h1
    simp [getContexts, h1]
  · have := congrArg List.length h2
    simpa using this

/-- C10 as stated fails: in the output `ctx-a cl us\r\n\r\n` the second line
is the single white space code point `\r`, yet it produces a record (with
empty name and namespace); there are two records and one non-blank line. -/
theorem getContexts_blank_line_record :
    getContexts (.ok "ctx-a cl us\r\n\r\n".toList)
      = some ([⟨"ctx-a".toList, [], false⟩, ⟨[], [], false⟩], none) ∧
    (strings.Split "ctx-a cl us\r\n\r\n".toList '\n').filter (fun l => !blank l)
      = ["ctx-a cl us\r".toList] ∧
    blank "\r".toList = true ∧
    parse_line "\r".toList = some ⟨[], [], false⟩ := by
  decide

/-- C10 amended: empty lines are skipped. When the listing subprocess
succeeds there are as many records as non-empty lines in the output split on
newline, and every record is the parse of a non-empty line. -/
theorem getContexts_skips_empty (stdout : GoString) :
    ∃ recs, getContexts (.ok stdout) = some (recs, none) ∧
      recs.length = ((strings.Split stdout '\n').filter (fun l => decide (l ≠ []))).length ∧
      ∀ r ∈ recs, ∃ l ∈ strings.Split stdout '\n', l ≠ [] ∧ parse_line l = some r := by
  obtain ⟨recs, h1, h2⟩ := getContexts_loop_spec (strings.Split stdout '\n') []
  refine ⟨recs, ?_, ?_, ?_⟩
  · simp only [List.nil_append] at h1
    simp [getContexts, h1]
  · have := congrArg List.length h2
    simpa using this
  · intro r hr
    have hmem : some r ∈ recs.map some := List.mem_map.mpr ⟨r, hr, rfl⟩
    rw [h2] at hmem
    obtain ⟨l, hl, hp⟩ := List.mem_map.mp hmem
    rw [List.mem_filter] at hl
    exact ⟨l, hl.1, by simpa using hl.2, hp⟩

/-! ## Lines as tokens and white space -/

theorem layout_lead (lead : GoString) (pairs : List (GoString × GoString)) :
    layout lead pairs = lead ++ layout [] pairs := by
  cases pairs with
  | nil => simp [layout]
  | cons p rest => obtain ⟨t, w⟩ := p; simp [layout]

theorem fieldsFrom_token :
    ∀ (t cur x : GoString), (∀ c ∈ t, unicode.IsSpace c = false) →
      fieldsFrom cur (t ++ x) = fieldsFrom (cur ++ t) x := by
  intro t
  induction t with
  | nil => intro cur x _; simp
  | cons a t ih =>
    intro cur x h
    have ha : unicode.IsSpace a = false := h a (List.mem_cons_self _ _)
    rw [List.cons_append, fieldsFrom]
    simp only [ha, Bool.false_eq_true, if_false]
    rw [ih (cur ++ [a]) x (fun c hc => h c (List.mem_cons_of_mem _ hc))]
    simp

theorem fieldsFrom_gap_nil :
    ∀ (w x : GoString), (∀ c ∈ w, unicode.IsSpace c = true) →
      fieldsFrom [] (w ++ x) = fieldsFrom [] x := by
  intro w
  induction w with
  | nil => intro x _; rfl
  | cons a w ih =>
    intro x h
    have ha : unicode.IsSpace a = true := h a (List.mem_cons_self _ _)
    rw [List.cons_append, fieldsFrom]
    simp only [ha, if_true]
    exact ih x (fun c hc => h c (List.mem_cons_of_mem _ hc))

theorem fieldsFrom_gap (cur w x : GoString) (hcur : cur ≠ []) (hw : w ≠ [])
    (h : ∀ c ∈ w, unicode.IsSpace c = true) :
    fieldsFrom cur (w ++ x) = cur :: fieldsFrom [] x := by
  cases w with
  | nil => exact absurd rfl hw
  | cons a w =>
    have ha : unicode.IsSpace a = true := h a (List.mem_cons_self _ _)
    rw [List.cons_append, fieldsFrom]
    simp only [ha, if_true, hcur, if_false]
    rw [fieldsFrom_gap_nil w x (fun c hc => h c (List.mem_cons_of_mem _ hc))]

/-- The fields of a laid out string are its tokens. -/
theorem fields_layout :
    ∀ (pairs : List (GoString × GoString)) (lead : GoString),
      (∀ c ∈ lead, unicode.IsSpace c = true) → Laid pairs →
      fields (layout lead pairs) = pairs.map Prod.fst := by
  intro pairs
  induction pairs with
  | nil =>
    intro lead hl _
    have := fieldsFrom_gap_nil lead [] hl
    simp only [List.append_nil] at this
    simp [fields, layout, this, fieldsFrom]
  | cons p rest ih =>
    intro lead hl hp
    obtain ⟨t, w⟩ := p
    obtain ⟨ht, hts, hws, hne, hrest⟩ := hp
    have hw : ∀ c ∈ w, unicode.IsSpace c = true := fun c hc => isPerlSpace_IsSpace c (hws c hc)
    simp only [fields, layout, List.map_cons]
    rw [fieldsFrom_gap_nil lead _ hl, fieldsFrom_token t [] _ hts, List.nil_append]
    cases rest with
    | nil =>
      simp only [layout, List.map_nil]
      by_cases hwn : w = []
      · subst hwn; simp [fieldsFrom, ht]
      · have := fieldsFrom_gap t w [] ht hwn hw
        simp only [List.append_nil] at this
        rw [this]
        simp [fieldsFrom]
    | cons q rest =>
      have hwn : w ≠ [] := hne (by simp)
      rw [layout_lead, fieldsFrom_gap t w _ ht hwn hw]
      have := ih [] (by simp) hrest
      simp only [fields] at this
      rw [this]

/-- Every string whose white space is matched by `\s` is laid out as tokens
and runs of white space. -/
theorem exists_layout :
    ∀ s : GoString, plainSpaced s →
      ∃ lead pairs, (∀ c ∈ lead, regexp.isPerlSpace c = true) ∧ Laid pairs ∧
        s = layout lead pairs := by
  intro s
  induction s with
  | nil => intro _; exact ⟨[], [], by simp, trivial, rfl⟩
  | cons a s ih =>
    intro hs
    have hs1 : plainSpaced s := fun c hc => hs c (List.mem_cons_of_mem _ hc)
    obtain ⟨lead, pairs, hl, hp, he⟩ := ih hs1
    by_cases ha : unicode.IsSpace a = true
    · refine ⟨a :: lead, pairs, ?_, hp, ?_⟩
      · intro c hc
        rcases List.mem_cons.mp hc with h | h
        · subst h; exact hs c (List.mem_cons_self _ _) ha
        · exact hl c h
      · rw [he, layout_lead lead, layout_lead (a :: lead)]; rfl
    · have ha1 : unicode.IsSpace a = false := by simpa using ha
      cases lead with
      | nil =>
        cases pairs with
        | nil =>
          refine ⟨[], [([a], [])], by simp, ?_, ?_⟩
          · exact ⟨by simp, by simpa using ha1, by simp, by simp, trivial⟩
          · rw [he]; simp [layout]
        | cons p rest =>
          obtain ⟨t, w⟩ := p
          obtain ⟨ht, hts, hws, hne, hrest⟩ := hp
          refine ⟨[], (a :: t, w) :: rest, by simp, ?_, ?_⟩
          · refine ⟨by simp, ?_, hws, hne, hrest⟩
            intro c hc
            rcases List.mem_cons.mp hc with h | h
            · subst h; exact ha1
            · exact hts c h
          · rw [he]; simp [layout]
      | cons b lead =>
        refine ⟨[], ([a], b :: lead) :: pairs, by simp, ?_, ?_⟩
        · exact ⟨by simp, by simpa using ha1, hl, fun _ => by simp, hp⟩
        · rw [he]; simp [layout]

theorem TrimRightFunc_token (p : Char → Bool) (x : GoString) :
    ∀ t : GoString, (∀ c ∈ t, p c = false) →
      strings.TrimRightFunc (t ++ x) p = t ++ strings.TrimRightFunc x p := by
  intro t
  induction t with
  | nil => intro _; rfl
  | cons a t ih =>
    intro h
    rw [List.cons_append, TrimRightFunc_cons_of_not p a _ (h a (List.mem_cons_self _ _)),
      ih (fun c hc => h c (List.mem_cons_of_mem _ hc))]
    rfl

theorem core_cons_ne_nil (p : GoString × GoString) (rest : List (GoString × GoString))
    (h : Laid (p :: rest)) : core (p :: rest) ≠ [] := by
  obtain ⟨t, w⟩ := p
  obtain ⟨ht, _⟩ := h
  cases rest with
  | nil => simpa [core] using ht
  | cons q rest => simp [core, ht]

theorem TrimRightFunc_layout :
    ∀ pairs : List (GoString × GoString), Laid pairs →
      strings.TrimRightFunc (layout [] pairs) unicode.IsSpace = core pairs := by
  intro pairs
  induction pairs with
  | nil => intro _; rfl
  | cons p rest ih =>
    intro hp
    obtain ⟨t, w⟩ := p
    obtain ⟨ht, hts, hws, hne, hrest⟩ := hp
    have hw : ∀ c ∈ w, unicode.IsSpace c = true := fun c hc => isPerlSpace_IsSpace c (hws c hc)
    simp only [layout, List.nil_append]
    rw [TrimRightFunc_token _ _ t hts]
    cases rest with
    | nil =>
      simp only [layout, core]
      rw [TrimRightFunc_all _ w hw, List.append_nil]
    | cons q rest =>
      have hc := core_cons_ne_nil q rest hrest
      rw [layout_lead, TrimRightFunc_append_of_ne_nil _ _ (by rw [ih hrest]; exact hc) w,
        ih hrest]
      rfl

theorem dropWhile_layout (pairs : List (GoString × GoString)) (h : Laid pairs) :
    (layout [] pairs).dropWhile unicode.IsSpace = layout [] pairs := by
  cases pairs with
  | nil => rfl
  | cons p rest =>
    obtain ⟨t, w⟩ := p
    obtain ⟨ht, hts, _⟩ := h
    cases t with
    | nil => exact absurd rfl ht
    | cons a t =>
      have ha : unicode.IsSpace a = false := hts a (List.mem_cons_self _ _)
      simp [layout, ha]

/-- Trimming a laid out string leaves its tokens and the runs between. -/
theorem TrimSpace_layout (lead : GoString) (pairs : List (GoString × GoString))
    (hl : ∀ c ∈ lead, regexp.isPerlSpace c = true) (hp : Laid pairs) :
    strings.TrimSpace (layout lead pairs) = core pairs := by
  have hl1 : ∀ c ∈ lead, unicode.IsSpace c = true := fun c hc => isPerlSpace_IsSpace c (hl c hc)
  rw [strings.TrimSpace, strings.TrimLeftFunc, layout_lead,
    List.dropWhile_append_of_pos hl1, dropWhile_layout pairs hp, TrimRightFunc_layout pairs hp]

theorem replaceRuns_cons_of_not (b : Bool) (a : Char) (x : GoString)
    (ha : regexp.isPerlSpace a = false) :
    regexp.replaceRuns [' '] b (a :: x) = a :: regexp.replaceRuns [' '] false x := by
  simp [regexp.replaceRuns, ha]

theorem replaceRuns_token_false (x : GoString) :
    ∀ t : GoString, (∀ c ∈ t, unicode.IsSpace c = false) →
      regexp.replaceRuns [' '] false (t ++ x) = t ++ regexp.replaceRuns [' '] false x := by
  intro t
  induction t with
  | nil => intro _; rfl
  | cons a t ih =>
    intro h
    have ha := not_isPerlSpace_of_not_IsSpace a (h a (List.mem_cons_self _ _))
    rw [List.cons_append, replaceRuns_cons_of_not false a _ ha,
      ih (fun c hc => h c (List.mem_cons_of_mem _ hc))]
    rfl

theorem replaceRuns_token (b : Bool) (t x : GoString) (ht : t ≠ [])
    (h : ∀ c ∈ t, unicode.IsSpace c = false) :
    regexp.replaceRuns [' '] b (t ++ x) = t ++ regexp.replaceRuns [' '] false x := by
  cases t with
  | nil => exact absurd rfl ht
  | cons a t =>
    have ha := not_isPerlSpace_of_not_IsSpace a (h a (List.mem_cons_self _ _))
    rw [List.cons_append, replaceRuns_cons_of_not b a _ ha,
      replaceRuns_token_false x t (fun c hc => h c (List.mem_cons_of_mem _ hc))]
    rfl

theorem replaceRuns_gap_true (x : GoString) :
    ∀ w : GoString, (∀ c ∈ w, regexp.isPerlSpace c = true) →
      regexp.replaceRuns [' '] true (w ++ x) = regexp.replaceRuns [' '] true x := by
  intro w
  induction w with
  | nil => intro _; rfl
  | cons a w ih =>
    intro h
    have ha := h a (List.mem_cons_self _ _)
    rw [List.cons_append, regexp.replaceRuns]
    simp only [ha, if_true]
    exact ih (fun c hc => h c (List.mem_cons_of_mem _ hc))

theorem replaceRuns_gap (w x : GoString) (hw : w ≠ [])
    (h : ∀ c ∈ w, regexp.isPerlSpace c = true) :
    regexp.replaceRuns [' '] false (w ++ x) = ' ' :: regexp.replaceRuns [' '] true x := by
  cases w with
  | nil => exact absurd rfl hw
  | cons a w =>
    have ha := h a (List.mem_cons_self _ _)
    rw [List.cons_append, regexp.replaceRuns]
    simp only [ha, if_true, Bool.false_eq_true, if_false]
    rw [replaceRuns_gap_true x w (fun c hc => h c (List.mem_cons_of_mem _ hc))]
    rfl

/-- Replacing the runs of `\s` between the tokens joins the tokens by single
spaces. -/
theorem replaceRuns_core :
    ∀ (pairs : List (GoString × GoString)) (b : Bool), Laid pairs →
      regexp.replaceRuns [' '] b (core pairs) = joined (pairs.map Prod.fst) := by
  intro pairs
  induction pairs with
  | nil => intro b _; rfl
  | cons p rest ih =>
    intro b hp
    obtain ⟨t, w⟩ := p
    obtain ⟨ht, hts, hws, hne, hrest⟩ := hp
    cases rest with
    | nil =>
      have := replaceRuns_token b t [] ht hts
      simp only [List.append_nil] at this
      simp only [core, List.map_cons, List.map_nil, joined, this]
      simp [regexp.replaceRuns]
    | cons q rest =>
      have hwn : w ≠ [] := hne (by simp)
      have := ih true hrest
      simp only [core, List.map_cons, joined] at this ⊢
      rw [replaceRuns_token b t _ ht hts, replaceRuns_gap w _ hwn hws, this]

/-- The normalized form of a laid out line: its tokens joined by single
spaces. -/
theorem normalized_layout (lead : GoString) (pairs : List (GoString × GoString))
    (hl : ∀ c ∈ lead, regexp.isPerlSpace c = true) (hp : Laid pairs) :
    normalized (layout lead pairs) = joined (pairs.map Prod.fst) := by
  rw [normalized, TrimSpace_layout lead pairs hl hp]
  exact replaceRuns_core pairs false hp

theorem Split_no_sep (sep : Char) :
    ∀ t : GoString, sep ∉ t → strings.Split t sep = [t] := by
  intro t
  induction t with
  | nil => intro _; rfl
  | cons a t ih =>
    intro h
    have ha : a ≠ sep := fun e => h (by simp [e])
    have ht : sep ∉ t := fun e => h (List.mem_cons_of_mem _ e)
    simp [strings.Split, ha, ih ht]

theorem Split_append_sep (sep : Char) (x : GoString) :
    ∀ t : GoString, sep ∉ t →
      strings.Split (t ++ sep :: x) sep = t :: strings.Split x sep := by
  intro t
  induction t with
  | nil => intro _; simp [strings.Split]
  | cons a t ih =>
    intro h
    have ha : a ≠ sep := fun e => h (by simp [e])
    have ht : sep ∉ t := fun e => h (List.mem_cons_of_mem _ e)
    simp [strings.Split, ha, ih ht]

/-- Splitting on single spaces the tokens joined by single spaces gives the
tokens back. -/
theorem Split_joined :
    ∀ ts : List GoString, ts ≠ [] → (∀ t ∈ ts, ' ' ∉ t) →
      strings.Split (joined ts) ' ' = ts := by
  intro ts
  induction ts with
  | nil => intro h; exact absurd rfl h
  | cons t ts ih =>
    intro _ h
    have ht : ' ' ∉ t := h t (List.mem_cons_self _ _)
    cases ts with
    | nil => simpa [joined] using Split_no_sep ' ' t ht
    | cons u ts =>
      simp only [joined]
      rw [Split_append_sep ' ' _ t ht,
        ih (by simp) (fun v hv => h v (List.mem_cons_of_mem _ hv))]

theorem joined_cons_ne_nil (t : GoString) (ts : List GoString) (ht : t ≠ []) :
    joined (t :: ts) ≠ [] := by
  cases ts with
  | nil => simpa [joined] using ht
  | cons u ts => simp [joined, ht]

theorem head?_joined (t : GoString) (ts : List GoString) (ht : t ≠ []) :
    (joined (t :: ts)).head? = t.head? := by
  cases t with
  | nil => exact absurd rfl ht
  | cons a t => cases ts <;> simp [joined]

theorem getLast?_joined :
    ∀ ts : List GoString, (∀ t ∈ ts, t ≠ []) →
      (joined ts).getLast? = ts.getLast?.bind List.getLast? := by
  intro ts
  induction ts with
  | nil => intro _; rfl
  | cons t ts ih =>
    intro h
    cases ts with
    | nil => simp [joined]
    | cons u ts =>
      have hu : u ≠ [] := h u (by simp)
      have hj := joined_cons_ne_nil u ts hu
      have := ih (fun v hv => h v (List.mem_cons_of_mem _ hv))
      simp only [joined, List.getLast?_cons_cons] at this ⊢
      rw [← this, List.getLast?_append, List.getLast?_cons]
      cases hjl : (joined (u :: ts)).getLast? with
      | none => exact absurd (List.getLast?_eq_none_iff.mp hjl) hj
      | some c => simp

theorem Laid_tokens :
    ∀ pairs : List (GoString × GoString), Laid pairs →
      ∀ t ∈ pairs.map Prod.fst, t ≠ [] ∧ ∀ c ∈ t, unicode.IsSpace c = false := by
  intro pairs
  induction pairs with
  | nil => intro _ t ht; simp at ht
  | cons p rest ih =>
    intro hp t ht
    obtain ⟨u, w⟩ := p
    obtain ⟨hu, hus, _, _, hrest⟩ := hp
    rcases List.mem_cons.mp ht with h | h
    · subst h; exact ⟨hu, hus⟩
    · exact ih hrest t h

theorem dropWhile_of_head (p : Char → Bool) (l : GoString) (a : Char)
    (h : l.head? = some a) (ha : p a = false) : l.dropWhile p = l := by
  cases l with
  | nil => simp at h
  | cons b l =>
    simp only [List.head?_cons, Option.some.injEq] at h
    subst h
    simp [ha]

theorem contains_star_of_ne (c : Char) (h : c ≠ '*') :
    (fun c => List.contains "*".toList c) c = false := by
  have h3 : "*".toList = ['*'] := rfl
  simp [h3, h]

theorem afterMarker_dropWhile (line rest : GoString) (h : afterMarker line = some rest) :
    line.dropWhile unicode.IsSpace = '*' :: rest := by
  simp only [afterMarker] at h
  cases hd : line.dropWhile unicode.IsSpace with
  | nil => rw [hd] at h; cases h
  | cons c r =>
    rw [hd] at h
    by_cases hc : c = '*'
    · simp only [hc, if_true, Option.some.injEq] at h
      rw [hc, h]
    · simp [hc] at h

/-- The fields of a marked line whose text after the marker is laid out, does
not start with `*` and does not end with `*`. -/
theorem lineFields_marked (line lead : GoString) (pairs : List (GoString × GoString))
    (hd : line.dropWhile unicode.IsSpace = '*' :: layout lead pairs)
    (hl : ∀ c ∈ lead, regexp.isPerlSpace c = true) (hp : Laid pairs)
    (hne : pairs ≠ [])
    (hstar : (layout lead pairs).head? ≠ some '*')
    (hlast : (pairs.map Prod.fst).getLast?.bind List.getLast? ≠ some '*') :
    lineFields line = pairs.map Prod.fst := by
  have hl1 : ∀ c ∈ lead, unicode.IsSpace c = true := fun c hc => isPerlSpace_IsSpace c (hl c hc)
  have htok := Laid_tokens pairs hp
  obtain ⟨p0, ps, hps⟩ := List.exists_cons_of_ne_nil hne
  subst hps
  obtain ⟨t0, w0⟩ := p0
  have hJne : joined (List.map Prod.fst ((t0, w0) :: ps)) ≠ [] :=
    joined_cons_ne_nil t0 _ (htok t0 (by simp)).1
  have hJlast := getLast?_joined (List.map Prod.fst ((t0, w0) :: ps)) (fun t ht => (htok t ht).1)
  have hJhead : (joined (List.map Prod.fst ((t0, w0) :: ps))).head? = t0.head? :=
    head?_joined t0 _ (htok t0 (by simp)).1
  obtain ⟨a0, t0', ht0⟩ := List.exists_cons_of_ne_nil (htok t0 (by simp)).1
  have ha0 : unicode.IsSpace a0 = false := (htok t0 (by simp)).2 a0 (by simp [ht0])
  obtain ⟨cl, hcl⟩ : ∃ c, (joined (List.map Prod.fst ((t0, w0) :: ps))).getLast? = some c := by
    cases h : (joined (List.map Prod.fst ((t0, w0) :: ps))).getLast? with
    | none => exact absurd (List.getLast?_eq_none_iff.mp h) hJne
    | some c => exact ⟨c, rfl⟩
  have hcl_star : cl ≠ '*' := by
    intro e
    apply hlast
    rw [← hJlast, hcl, e]
  have hcl_sp : unicode.IsSpace cl = false := by
    rw [hJlast] at hcl
    cases hq : (List.map Prod.fst ((t0, w0) :: ps)).getLast? with
    | none => rw [hq] at hcl; cases hcl
    | some q =>
      rw [hq] at hcl
      exact (htok q (List.mem_of_getLast?_eq_some hq)).2 cl (List.mem_of_getLast?_eq_some hcl)
  -- the normalized line
  have hcore := core_cons_ne_nil (t0, w0) ps hp
  have hnorm : ∃ pre : GoString, (pre = [] ∧ lead = [] ∨ pre = [' ']) ∧
      normalized line = '*' :: (pre ++ joined (List.map Prod.fst ((t0, w0) :: ps))) := by
    have h1 : strings.TrimSpace line = '*' :: (lead ++ core ((t0, w0) :: ps)) := by
      rw [strings.TrimSpace, strings.TrimLeftFunc, hd,
        TrimRightFunc_cons_of_not _ '*' _ (by decide), layout_lead,
        TrimRightFunc_append_of_ne_nil _ _ (by rw [TrimRightFunc_layout _ hp]; exact hcore) lead,
        TrimRightFunc_layout _ hp]
    rw [normalized, h1, regexp.ReplaceAllString]
    have h2 : " ".toList = [' '] := rfl
    rw [h2, replaceRuns_cons_of_not false '*' _ (by decide)]
    by_cases hle : lead = []
    · refine ⟨[], Or.inl ⟨rfl, hle⟩, ?_⟩
      rw [hle, List.nil_append, List.nil_append, replaceRuns_core _ false hp]
    · refine ⟨[' '], Or.inr rfl, ?_⟩
      rw [replaceRuns_gap lead _ hle hl, replaceRuns_core _ true hp]
      rfl
  obtain ⟨pre, hpre, hn⟩ := hnorm
  -- the marker and the stars around the line are removed
  have hhas : strings.HasPrefix (normalized line) "*".toList = true := by
    rw [HasPrefix_star, hn]; rfl
  have hstarF : (fun c => List.contains "*".toList c) cl = false :=
    contains_star_of_ne cl hcl_star
  have htrimR : strings.TrimRightFunc (normalized line) (fun c => List.contains "*".toList c)
      = normalized line := by
    apply TrimRightFunc_of_getLast _ _ cl _ hstarF
    rw [hn, List.getLast?_cons, List.getLast?_append, hcl]
    rfl
  have hhead : ∃ a, (pre ++ joined (List.map Prod.fst ((t0, w0) :: ps))).head? = some a ∧
      a ≠ '*' := by
    rcases hpre with ⟨h, hle⟩ | h
    · refine ⟨a0, ?_, ?_⟩
      · rw [h, List.nil_append, hJhead, ht0]; rfl
      · intro e
        apply hstar
        rw [hle]
        simp [layout, ht0, e]
    · exact ⟨' ', by rw [h]; rfl, by decide⟩
  obtain ⟨a, hah, hane⟩ := hhead
  have htrim : strings.Trim (normalized line) "*".toList
      = pre ++ joined (List.map Prod.fst ((t0, w0) :: ps)) := by
    rw [strings.Trim, htrimR, strings.TrimLeftFunc, hn]
    have h4 : (fun c => List.contains "*".toList c) '*' = true := by decide
    rw [List.dropWhile_cons_of_pos h4]
    exact dropWhile_of_head _ _ a hah (contains_star_of_ne a hane)
  have hpre_sp : ∀ c ∈ pre, unicode.IsSpace c = true := by
    intro c hc
    rcases hpre with ⟨h, _⟩ | h
    · rw [h] at hc; simp at hc
    · rw [h] at hc
      simp only [List.mem_singleton] at hc
      subst hc; decide
  have hun : unmarked line = joined (List.map Prod.fst ((t0, w0) :: ps)) := by
    rw [unmarked, hhas, if_pos rfl, htrim, strings.TrimSpace, strings.TrimLeftFunc,
      List.dropWhile_append_of_pos hpre_sp,
      dropWhile_of_head _ _ a0 (by rw [hJhead, ht0]; rfl) ha0]
    exact TrimRightFunc_of_getLast _ _ cl hcl hcl_sp
  rw [lineFields, hun]
  apply Split_joined _ (by simp)
  intro t ht hmem
  have := (htok t ht).2 ' ' hmem
  exact absurd this (by decide)

/-- A marker directly followed by another `*`: in `**a b c d` field 0 after
the single leading marker is `*a`, and `parse_line` returns the name `a`. -/
theorem parse_line_double_marker :
    afterMarker "**a b c d".toList = some "*a b c d".toList ∧
    fields "*a b c d".toList = ["*a".toList, "b".toList, "c".toList, "d".toList] ∧
    parse_line "**a b c d".toList = some ⟨"a".toList, "d".toList, true⟩ := by
  decide

/-- White space that `\s` does not match: in `* a<U+00A0>b c d e` the
no-break space separates the fields `a` and `b`, while `parse_line`, which
splits the normalized line on spaces only, returns the name `a<U+00A0>b` and
the namespace `e`. -/
theorem parse_line_no_break_space :
    fields " a\u00a0b c d e".toList
      = ["a".toList, "b".toList, "c".toList, "d".toList, "e".toList] ∧
    parse_line "* a\u00a0b c d e".toList = some ⟨"a\u00a0b".toList, "e".toList, true⟩ := by
  decide

/-- C1 as stated fails: in `* a b c d*` the fields after the single leading
marker are `a`, `b`, `c`, `d*`, and `parse_line` returns the namespace `d`,
not field 3: the stars at the end of the line are removed with the marker. -/
theorem parse_line_marker_trailing_star :
    afterMarker "* a b c d*".toList = some " a b c d*".toList ∧
    fields " a b c d*".toList = ["a".toList, "b".toList, "c".toList, "d*".toList] ∧
    parse_line "* a b c d*".toList = some ⟨"a".toList, "d".toList, true⟩ ∧
    parse_line "* a b c d*".toList ≠ some ⟨"a".toList, "d*".toList, true⟩ := by
  decide

theorem TrimRightFunc_idem (p : Char → Bool) :
    ∀ s : GoString,
      strings.TrimRightFunc (strings.TrimRightFunc s p) p = strings.TrimRightFunc s p := by
  intro s
  induction s with
  | nil => rfl
  | cons c cs ih =>
    rw [TrimRightFunc_cons]
    by_cases h : strings.TrimRightFunc cs p = [] ∧ p c = true
    · rw [if_pos h]; rfl
    · rw [if_neg h, TrimRightFunc_cons, ih, if_neg h]

/-- A string is its right-trimmed part followed by trimmed code points. -/
theorem TrimRightFunc_decomp (p : Char → Bool) :
    ∀ s : GoString, ∃ W, (∀ c ∈ W, p c = true) ∧ s = strings.TrimRightFunc s p ++ W := by
  intro s
  induction s with
  | nil => exact ⟨[], by simp, rfl⟩
  | cons c cs ih =>
    obtain ⟨W, hW, hs⟩ := ih
    rw [TrimRightFunc_cons]
    by_cases h : strings.TrimRightFunc cs p = [] ∧ p c = true
    · rw [if_pos h]
      rw [h.1, List.nil_append] at hs
      refine ⟨c :: W, ?_, by rw [hs]; rfl⟩
      intro x hx
      rcases List.mem_cons.mp hx with e | e
      · rw [e]; exact h.2
      · exact hW x e
    · rw [if_neg h]
      exact ⟨W, hW, by rw [List.cons_append, ← hs]⟩

theorem TrimRightFunc_append_left (p : Char → Bool) (T : GoString) :
    ∀ (A : GoString) (c : Char), A.getLast? = some c → p c = false →
      strings.TrimRightFunc (A ++ T) p = A ++ strings.TrimRightFunc T p := by
  intro A
  induction A with
  | nil => intro c h; simp at h
  | cons a A ih =>
    intro c h hc
    cases A with
    | nil =>
      simp only [List.getLast?_singleton, Option.some.injEq] at h
      subst h
      rw [List.singleton_append, TrimRightFunc_cons_of_not p a T hc]
      rfl
    | cons b A =>
      rw [List.getLast?_cons_cons] at h
      have hi := ih c h hc
      rw [List.cons_append, TrimRightFunc_cons, hi]
      simp

theorem TrimSpace_idem (s : GoString) :
    strings.TrimSpace (strings.TrimSpace s) = strings.TrimSpace s := by
  simp only [strings.TrimSpace, strings.TrimLeftFunc]
  cases hd : s.dropWhile unicode.IsSpace with
  | nil => rfl
  | cons c cs =>
    have hc := dropWhile_head_not s c cs hd
    have hc1 : ¬ (unicode.IsSpace c = true) := by simp [hc]
    rw [TrimRightFunc_cons_of_not _ c cs hc, List.dropWhile_cons_of_neg hc1,
      ← TrimRightFunc_cons_of_not _ c cs hc, TrimRightFunc_idem]

theorem fieldsFrom_trailing (W : GoString) (hW : ∀ c ∈ W, unicode.IsSpace c = true) :
    ∀ (x cur : GoString), fieldsFrom cur (x ++ W) = fieldsFrom cur x := by
  intro x
  induction x with
  | nil =>
    intro cur
    rw [List.nil_append]
    by_cases hw : W = []
    · rw [hw]
    · by_cases hc : cur = []
      · subst hc
        have h := fieldsFrom_gap_nil W [] hW
        rw [List.append_nil] at h
        exact h
      · have h := fieldsFrom_gap cur W [] hc hw hW
        rw [List.append_nil] at h
        rw [h]
        simp [fieldsFrom, hc]
  | cons a x ih =>
    intro cur
    simp only [List.cons_append, fieldsFrom, List.append_eq, ih]

/-- Replacing the runs of `\s` in white space followed by a text gives white
space followed by the replacement in the text. -/
theorem replaceRuns_space :
    ∀ w : GoString, (∀ c ∈ w, unicode.IsSpace c = true) → ∀ b : Bool,
      ∃ (w1 : GoString) (b1 : Bool), (∀ c ∈ w1, unicode.IsSpace c = true) ∧
        (b = false → w ≠ [] → w1 ≠ []) ∧
        ∀ x, regexp.replaceRuns [' '] b (w ++ x) = w1 ++ regexp.replaceRuns [' '] b1 x := by
  intro w
  induction w with
  | nil => intro _ b; exact ⟨[], b, by simp, by simp, fun x => rfl⟩
  | cons a w ih =>
    intro h b
    have ha := h a (List.mem_cons_self _ _)
    have hw : ∀ c ∈ w, unicode.IsSpace c = true := fun c hc => h c (List.mem_cons_of_mem _ hc)
    by_cases hp : regexp.isPerlSpace a = true
    · obtain ⟨w1, b1, h1, _, h3⟩ := ih hw true
      cases b with
      | true =>
        refine ⟨w1, b1, h1, by simp, ?_⟩
        intro x
        simp [regexp.replaceRuns, hp, h3]
      | false =>
        refine ⟨' ' :: w1, b1, ?_, by simp, ?_⟩
        · intro c hc
          rcases List.mem_cons.mp hc with e | e
          · rw [e]; decide
          · exact h1 c e
        · intro x
          simp [regexp.replaceRuns, hp, h3]
    · obtain ⟨w1, b1, h1, _, h3⟩ := ih hw false
      refine ⟨a :: w1, b1, ?_, by simp, ?_⟩
      · intro c hc
        rcases List.mem_cons.mp hc with e | e
        · rw [e]; exact ha
        · exact h1 c e
      · intro x
        simp [regexp.replaceRuns, hp, h3]

theorem head?_core (t w : GoString) (ps : List (GoString × GoString)) (ht : t ≠ []) :
    (core ((t, w) :: ps)).head? = t.head? := by
  cases t with
  | nil => exact absurd rfl ht
  | cons a t => cases ps <;> simp [core]

theorem joined_append :
    ∀ a : List GoString, a ≠ [] → ∀ b : List GoString, b ≠ [] →
      joined (a ++ b) = joined a ++ ' ' :: joined b := by
  intro a
  induction a with
  | nil => intro h; exact absurd rfl h
  | cons t a ih =>
    intro _ b hb
    cases a with
    | nil =>
      cases b with
      | nil => exact absurd rfl hb
      | cons u b => simp [joined]
    | cons v a =>
      have hi := ih (by simp) b hb
      rw [List.cons_append] at hi
      simp only [List.cons_append, joined, List.append_eq, hi, List.append_assoc]

/-- The fields `parse_line` extracts from a marked line start with the first
four whitespace-separated fields of the text after the marker, when the
marker is not directly followed by `*`, the white space between the fields is
matched by `\s`, and field 3, if it is the last field, does not end in `*`. -/
theorem lineFields_after_marker (line rest f0 f1 f2 f3 : GoString) (more : List GoString)
    (hd : line.dropWhile unicode.IsSpace = '*' :: rest)
    (hplain : plainSpaced (strings.TrimSpace rest))
    (hf : fields rest = f0 :: f1 :: f2 :: f3 :: more)
    (hstar : rest.head? ≠ some '*')
    (hlast : more = [] → f3.getLast? ≠ some '*') :
    ∃ tail, lineFields line = f0 :: f1 :: f2 :: f3 :: tail := by
  -- the text after the marker: white space, the trimmed text, white space
  have hU : ∀ c ∈ rest.takeWhile unicode.IsSpace, unicode.IsSpace c = true :=
    fun c hc => List.mem_takeWhile_imp hc
  have hrest : rest.takeWhile unicode.IsSpace ++ rest.dropWhile unicode.IsSpace = rest :=
    List.takeWhile_append_dropWhile _ _
  have hinner : strings.TrimSpace rest
      = strings.TrimRightFunc (rest.dropWhile unicode.IsSpace) unicode.IsSpace := rfl
  generalize rest.takeWhile unicode.IsSpace = U at hU hrest
  generalize rest.dropWhile unicode.IsSpace = D at hrest hinner
  obtain ⟨W, hW, hDW⟩ := TrimRightFunc_decomp unicode.IsSpace D
  obtain ⟨lead1, pairs, hl1, hp, he⟩ := exists_layout (strings.TrimSpace rest) hplain
  have hcore : strings.TrimRightFunc D unicode.IsSpace = core pairs := by
    calc strings.TrimRightFunc D unicode.IsSpace
        = strings.TrimSpace rest := hinner.symm
      _ = strings.TrimSpace (strings.TrimSpace rest) := (TrimSpace_idem rest).symm
      _ = strings.TrimSpace (layout lead1 pairs) := congrArg strings.TrimSpace he
      _ = core pairs := TrimSpace_layout lead1 pairs hl1 hp
  have hfs : pairs.map Prod.fst = f0 :: f1 :: f2 :: f3 :: more := by
    have h1 : fields rest = fields (strings.TrimRightFunc D unicode.IsSpace) := by
      have e : rest = U ++ (strings.TrimRightFunc D unicode.IsSpace ++ W) := by
        rw [← hDW, hrest]
      simp only [fields]
      rw [e, fieldsFrom_gap_nil U _ hU, fieldsFrom_trailing W hW]
    have h2 : fields (strings.TrimRightFunc D unicode.IsSpace) = pairs.map Prod.fst := by
      rw [← hinner, he]
      exact fields_layout pairs lead1 (fun c hc => isPerlSpace_IsSpace c (hl1 c hc)) hp
    rw [← h2, ← h1]
    exact hf
  -- the tokens
  have htok := Laid_tokens pairs hp
  rw [hfs] at htok
  obtain ⟨hf0, hs0⟩ := htok f0 (by simp)
  obtain ⟨_, hs1⟩ := htok f1 (by simp)
  obtain ⟨_, hs2⟩ := htok f2 (by simp)
  obtain ⟨hf3, hs3⟩ := htok f3 (by simp)
  have hnosp : ∀ f : GoString, (∀ c ∈ f, unicode.IsSpace c = false) → ' ' ∉ f := by
    intro f hsf hmem
    exact absurd (hsf ' ' hmem) (by decide)
  obtain ⟨a0, t0, ht0⟩ := List.exists_cons_of_ne_nil hf0
  have ha0 : unicode.IsSpace a0 = false := hs0 a0 (by simp [ht0])
  obtain ⟨c3, hc3⟩ : ∃ c, f3.getLast? = some c := by
    cases h : f3.getLast? with
    | none => exact absurd (List.getLast?_eq_none_iff.mp h) hf3
    | some c => exact ⟨c, rfl⟩
  have hsc3 : unicode.IsSpace c3 = false := hs3 c3 (List.mem_of_getLast?_eq_some hc3)
  have hP4ne : ∀ t ∈ [f0, f1, f2, f3], t ≠ [] := by
    intro t ht
    exact (htok t (by
      simp only [List.mem_cons, List.mem_singleton, List.not_mem_nil, or_false] at ht
      rcases ht with e | e | e | e <;> simp [e])).1
  have hP4last : (joined [f0, f1, f2, f3]).getLast? = some c3 := by
    rw [getLast?_joined [f0, f1, f2, f3] hP4ne]
    simpa using hc3
  have hP4head : (joined [f0, f1, f2, f3]).head? = some a0 := by
    rw [head?_joined f0 [f1, f2, f3] hf0, ht0]
    rfl
  have hpne : pairs ≠ [] := by
    intro e
    rw [e] at hfs
    cases hfs
  obtain ⟨p0, ps, hps⟩ := List.exists_cons_of_ne_nil hpne
  obtain ⟨u0, v0⟩ := p0
  have hu0 : u0 = f0 := by
    rw [hps] at hfs
    simp only [List.map_cons, List.cons.injEq] at hfs
    exact hfs.1
  have hinne : strings.TrimRightFunc D unicode.IsSpace ≠ [] := by
    rw [hcore, hps]
    exact core_cons_ne_nil (u0, v0) ps (hps ▸ hp)
  have hinhead : (strings.TrimRightFunc D unicode.IsSpace).head? = some a0 := by
    rw [hcore, hps, head?_core u0 v0 ps (by rw [hu0]; exact hf0), hu0, ht0]
    rfl
  -- the normalized line
  have hTS : strings.TrimSpace line
      = '*' :: (U ++ strings.TrimRightFunc D unicode.IsSpace) := by
    rw [strings.TrimSpace, strings.TrimLeftFunc, hd,
      TrimRightFunc_cons_of_not _ '*' _ (by decide), ← hrest,
      TrimRightFunc_append_of_ne_nil _ D hinne U]
  obtain ⟨w1, b1, hw1, hw1ne, hrr⟩ := replaceRuns_space U hU false
  have hn : normalized line = '*' :: (w1 ++ joined (f0 :: f1 :: f2 :: f3 :: more)) := by
    have h2 : " ".toList = [' '] := rfl
    rw [normalized, hTS, regexp.ReplaceAllString, h2,
      replaceRuns_cons_of_not false '*' _ (by decide), hrr, hcore,
      replaceRuns_core pairs b1 hp, hfs]
  obtain ⟨Z, hZ, hJ⟩ : ∃ Z, (Z = [] ∧ more = [] ∨ ∃ Z0, Z = ' ' :: Z0) ∧
      joined (f0 :: f1 :: f2 :: f3 :: more) = joined [f0, f1, f2, f3] ++ Z := by
    cases more with
    | nil => exact ⟨[], Or.inl ⟨rfl, rfl⟩, by simp⟩
    | cons u us =>
      exact ⟨' ' :: joined (u :: us), Or.inr ⟨_, rfl⟩,
        joined_append [f0, f1, f2, f3] (by simp) (u :: us) (by simp)⟩
  -- the stars at the end of the line are removed
  obtain ⟨T, hT, hTR⟩ : ∃ T, (T = [] ∨ ∃ Y, T = ' ' :: Y) ∧
      strings.TrimRightFunc (normalized line) (fun c => List.contains "*".toList c)
        = '*' :: (w1 ++ (joined [f0, f1, f2, f3] ++ T)) := by
    rcases hZ with ⟨hZ1, hmore⟩ | ⟨Z0, hZ0⟩
    · refine ⟨[], Or.inl rfl, ?_⟩
      have hc3star : c3 ≠ '*' := by
        intro e
        apply hlast hmore
        rw [hc3, e]
      rw [hn, hJ, hZ1]
      apply TrimRightFunc_of_getLast _ _ c3 _ (contains_star_of_ne c3 hc3star)
      rw [List.getLast?_cons, List.getLast?_append, List.append_nil, hP4last]
      rfl
    · refine ⟨' ' :: strings.TrimRightFunc Z0 (fun c => List.contains "*".toList c),
        Or.inr ⟨_, rfl⟩, ?_⟩
      have hsp : (fun c => List.contains "*".toList c) ' ' = false := by decide
      have e : '*' :: (w1 ++ (joined [f0, f1, f2, f3] ++ ' ' :: Z0))
          = ('*' :: (w1 ++ joined [f0, f1, f2, f3])) ++ (' ' :: Z0) := by simp
      rw [hn, hJ, hZ0, e,
        TrimRightFunc_append_of_ne_nil _ (' ' :: Z0)
          (by rw [TrimRightFunc_cons_of_not _ ' ' Z0 hsp]; simp),
        TrimRightFunc_cons_of_not _ ' ' Z0 hsp]
      simp only [List.cons_append, List.append_assoc]
  -- the marker is removed, and the stars that follow it directly
  obtain ⟨a, hah, hane⟩ : ∃ a, (w1 ++ (joined [f0, f1, f2, f3] ++ T)).head? = some a ∧
      a ≠ '*' := by
    cases w1 with
    | nil =>
      have hUnil : U = [] := by
        by_contra hne
        exact hw1ne rfl hne rfl
      refine ⟨a0, by simp [hP4head], ?_⟩
      intro e
      apply hstar
      rw [← hrest, hUnil, List.nil_append, hDW, List.head?_append, hinhead, e]
      rfl
    | cons x w1 =>
      refine ⟨x, rfl, ?_⟩
      intro e
      have hx := hw1 x (List.mem_cons_self _ _)
      rw [e] at hx
      exact absurd hx (by decide)
  have htrim : strings.Trim (normalized line) "*".toList
      = w1 ++ (joined [f0, f1, f2, f3] ++ T) := by
    have h4 : (fun c => List.contains "*".toList c) '*' = true := by decide
    rw [strings.Trim, hTR, strings.TrimLeftFunc, List.dropWhile_cons_of_pos h4]
    exact dropWhile_of_head _ _ a hah (contains_star_of_ne a hane)
  have hhas : strings.HasPrefix (normalized line) "*".toList = true := by
    rw [HasPrefix_star, hn]
    rfl
  have hun : unmarked line
      = joined [f0, f1, f2, f3] ++ strings.TrimRightFunc T unicode.IsSpace := by
    rw [unmarked, hhas, if_pos rfl, htrim, strings.TrimSpace, strings.TrimLeftFunc,
      List.dropWhile_append_of_pos hw1,
      dropWhile_of_head _ (joined [f0, f1, f2, f3] ++ T) a0 (by simp [hP4head]) ha0]
    exact TrimRightFunc_append_left _ T _ c3 hP4last hsc3
  have hT1 : strings.TrimRightFunc T unicode.IsSpace = [] ∨
      ∃ Y, strings.TrimRightFunc T unicode.IsSpace = ' ' :: Y := by
    rcases hT with h | ⟨Y, h⟩
    · left; rw [h]; rfl
    · rw [h, TrimRightFunc_cons]
      split_ifs
      · left; rfl
      · right; exact ⟨_, rfl⟩
  have hP4 : joined [f0, f1, f2, f3] = f0 ++ ' ' :: (f1 ++ ' ' :: (f2 ++ ' ' :: f3)) := by
    simp [joined]
  rw [lineFields, hun, hP4]
  rcases hT1 with h | ⟨Y, h⟩
  · refine ⟨[], ?_⟩
    rw [h, List.append_nil, Split_append_sep ' ' _ f0 (hnosp f0 hs0),
      Split_append_sep ' ' _ f1 (hnosp f1 hs1), Split_append_sep ' ' _ f2 (hnosp f2 hs2),
      Split_no_sep ' ' f3 (hnosp f3 hs3)]
  · refine ⟨strings.Split Y ' ', ?_⟩
    have e : (f0 ++ ' ' :: (f1 ++ ' ' :: (f2 ++ ' ' :: f3))) ++ ' ' :: Y
        = f0 ++ ' ' :: (f1 ++ ' ' :: (f2 ++ ' ' :: (f3 ++ ' ' :: Y))) := by simp
    rw [h, e, Split_append_sep ' ' _ f0 (hnosp f0 hs0),
      Split_append_sep ' ' _ f1 (hnosp f1 hs1), Split_append_sep ' ' _ f2 (hnosp f2 hs2),
      Split_append_sep ' ' _ f3 (hnosp f3 hs3)]

/-- C1 amended: for a line with a leading marker `*` not directly followed by
another `*`, with at least 4 whitespace-separated fields after the marker,
the white space between the fields being made of space, `\t`, `\n`, `\f`,
`\r` only, and field 3, when it is the last field, not ending in `*`,
`parse_line` returns a record with `selected = true`, whose name is field 0
and whose namespace is field 3. The white space before the first field and
after the last one is any white space. -/
theorem parse_line_marker (line rest f0 f1 f2 f3 : GoString) (more : List GoString)
    (hm : afterMarker line = some rest)
    (hplain : plainSpaced (strings.TrimSpace rest))
    (hf : fields rest = f0 :: f1 :: f2 :: f3 :: more)
    (hstar : rest.head? ≠ some '*')
    (hlast : more = [] → f3.getLast? ≠ some '*') :
    parse_line line = some ⟨f0, f3, true⟩ := by
  have hd := afterMarker_dropWhile line rest hm
  have hmark : hasMarker line = true := by simp [hasMarker, hd]
  obtain ⟨tail, hlf⟩ := lineFields_after_marker line rest f0 f1 f2 f3 more hd hplain hf
    hstar hlast
  rw [parse_line_eq, hlf, hmark]
  simp [index]

/-- Witness of C1: `*  ctx-a   cluster-a   user-a   ns-a  ` gives the name
`ctx-a`, the namespace `ns-a` and `selected = true`; so do a line whose
fifth field ends in `*` and a line with a no-break space after the marker
and a tab at its end. -/
theorem parse_line_marker_witness :
    parse_line "*  ctx-a   cluster-a   user-a   ns-a  ".toList
      = some ⟨"ctx-a".toList, "ns-a".toList, true⟩ ∧
    parse_line "* a b c d e*".toList = some ⟨"a".toList, "d".toList, true⟩ ∧
    parse_line "*\u00a0a b c d\t".toList = some ⟨"a".toList, "d".toList, true⟩ :=
  ⟨parse_line_marker "*  ctx-a   cluster-a   user-a   ns-a  ".toList
      "  ctx-a   cluster-a   user-a   ns-a  ".toList
      "ctx-a".toList "cluster-a".toList "user-a".toList "ns-a".toList []
      (by decide) (by unfold plainSpaced; decide) (by decide) (by decide) (by decide),
   parse_line_marker "* a b c d e*".toList " a b c d e*".toList
      "a".toList "b".toList "c".toList "d".toList ["e*".toList]
      (by decide) (by unfold plainSpaced; decide) (by decide) (by decide) (by decide),
   parse_line_marker "*\u00a0a b c d\t".toList "\u00a0a b c d\t".toList
      "a".toList "b".toList "c".toList "d".toList []
      (by decide) (by unfold plainSpaced; decide) (by decide) (by decide) (by decide)⟩

/-! ## Selection UI: confirm, resize, no entry -/

theorem enter_ne_cancel : ¬ ("enter".toList = "ctrl+c".toList) := by decide

theorem SelectedItem_none_of_empty (l : list.Model) (h : l.VisibleItems = []) :
    l.SelectedItem = none := by
  simp [list.Model.SelectedItem, h]

/-- C11 as stated fails: `parse_line` gives the empty name for a line made
of a carriage return; with the entry built from that record highlighted and
the activation subprocess succeeding, the view after `enter` is the list
view, not the text `Activating Context: ` followed by the name. -/
theorem Update_enter_empty_name_view :
    parse_line "\r".toList = some ⟨[], [], false⟩ ∧
    browsingEmptyName.list.SelectedItem = some ⟨[], [], false⟩ ∧
    (model.Update succeedingOutput idleList browsingEmptyName
      (tea.Msg.KeyMsg "enter".toList)).1.1.View = Frame.listView browsingEmptyName.list ∧
    (model.Update succeedingOutput idleList browsingEmptyName
      (tea.Msg.KeyMsg "enter".toList)).1.1.View
      ≠ Frame.quitText ("Activating Context: ".toList ++ []) := by
  decide

/-- C11 amended: for every model whose highlighted entry `i` has a non-empty
name and with which the activation subprocess succeeds, the view of the
model returned on `enter` is the text `Activating Context: ` followed by the
name, in the quit-text style. -/
theorem Update_enter_success_view
    (Output : List GoString → Except GoString GoString)
    (listUpdate : list.Model → tea.Msg → list.Model × tea.Cmd)
    (m : model) (i : item) (out : GoString)
    (hsel : m.list.SelectedItem = some i)
    (hok : Output (useContextArgv i.title) = .ok out)
    (htitle : i.title ≠ []) :
    (model.Update Output listUpdate m (tea.Msg.KeyMsg "enter".toList)).1.1.View
      = Frame.quitText ("Activating Context: ".toList ++ i.title) := by
  simp [model.Update, model.View, enter_ne_cancel, hsel, hok, htitle]

/-- Witness of C11: the entry `ctx-a` gives `Activating Context: ctx-a`. -/
theorem Update_enter_success_view_witness :
    (model.Update succeedingOutput idleList browsingCtxA
      (tea.Msg.KeyMsg "enter".toList)).1.1.View
      = Frame.quitText "Activating Context: ctx-a".toList :=
  Update_enter_success_view succeedingOutput idleList browsingCtxA
    ⟨"ctx-a".toList, "ns-a".toList, false⟩ [] (by decide) rfl (by decide)

/-- C12 as stated fails: the first `enter` returns the quit command, but the
loop ends only when it receives the `QuitMsg` of that command; when a second
`enter` is received before it, the activation subprocess is started a second
time. -/
theorem eventLoop_enter_twice :
    (model.Update succeedingOutput idleList browsingCtxA
      (tea.Msg.KeyMsg "enter".toList)).1.2 = tea.Cmd.Quit ∧
    (eventLoop succeedingOutput idleList browsingCtxA
      [tea.Received.msg (tea.Msg.KeyMsg "enter".toList),
       tea.Received.msg (tea.Msg.KeyMsg "enter".toList),
       tea.Received.QuitMsg]).2
      = [useContextArgv "ctx-a".toList, useContextArgv "ctx-a".toList] := by
  decide

/-- C12 amended: for every model and every behaviour of the activation
subprocess, `enter` returns the quit command, and the step starts at most
one subprocess: exactly the activation of the highlighted entry when there
is one, none otherwise; a failure starts no second attempt. When the
`QuitMsg` of that command is the next message the loop receives, the loop
ends with the model and the subprocesses of that single step, whatever is
received later. -/
theorem Update_enter_quits
    (Output : List GoString → Except GoString GoString)
    (listUpdate : list.Model → tea.Msg → list.Model × tea.Cmd) (m : model) :
    (model.Update Output listUpdate m (tea.Msg.KeyMsg "enter".toList)).1.2 = tea.Cmd.Quit ∧
    (model.Update Output listUpdate m (tea.Msg.KeyMsg "enter".toList)).2.length ≤ 1 ∧
    (∀ i, m.list.SelectedItem = some i →
      (model.Update Output listUpdate m (tea.Msg.KeyMsg "enter".toList)).2
        = [useContextArgv i.title]) ∧
    (m.list.SelectedItem = none →
      (model.Update Output listUpdate m (tea.Msg.KeyMsg "enter".toList)).2 = []) ∧
    (∀ later : List tea.Received,
      eventLoop Output listUpdate m
          (tea.Received.msg (tea.Msg.KeyMsg "enter".toList) :: tea.Received.QuitMsg :: later)
        = ((model.Update Output listUpdate m (tea.Msg.KeyMsg "enter".toList)).1.1,
           (model.Update Output listUpdate m (tea.Msg.KeyMsg "enter".toList)).2)) := by
  have hloop : ∀ later : List tea.Received,
      eventLoop Output listUpdate m
          (tea.Received.msg (tea.Msg.KeyMsg "enter".toList) :: tea.Received.QuitMsg :: later)
        = ((model.Update Output listUpdate m (tea.Msg.KeyMsg "enter".toList)).1.1,
           (model.Update Output listUpdate m (tea.Msg.KeyMsg "enter".toList)).2) := by
    intro later
    simp [eventLoop]
  refine ⟨?_, ?_, ?_, ?_, hloop⟩ <;>
    cases hsel : m.list.SelectedItem <;> simp [model.Update, enter_ne_cancel, hsel]

/-- C13: `getContexts` fails exactly when the listing subprocess fails. On a
failure it returns the error of the subprocess unchanged with no record; on
a success it returns records and no error. -/
theorem getContexts_error_iff :
    (∀ err, getContexts (.error err) = some ([], some err)) ∧
    (∀ stdout, ∃ recs, getContexts (.ok stdout) = some (recs, none)) ∧
    (∀ output recs e, getContexts output = some (recs, some e) → output = .error e) := by
  refine ⟨fun _ => rfl, ?_, ?_⟩
  · intro stdout
    obtain ⟨recs, h1, _⟩ := getContexts_loop_spec (strings.Split stdout '\n') []
    simp only [List.nil_append] at h1
    exact ⟨recs, by simp [getContexts, h1]⟩
  · intro output recs e h
    cases output with
    | error err =>
      simp only [getContexts, Option.some.injEq, Prod.mk.injEq] at h
      rw [h.2]
    | ok stdout =>
      obtain ⟨recs1, h1, _⟩ := getContexts_loop_spec (strings.Split stdout '\n') []
      simp only [List.nil_append] at h1
      simp [getContexts, h1] at h

/-- C14: for every model and every window-resize message of width `w`,
`Update` returns a model whose list has width `w`, with the choice, the
error, the quitting flag and the entries of the list unchanged, together
with the `nil` command; no subprocess is started. -/
theorem Update_resize
    (Output : List GoString → Except GoString GoString)
    (listUpdate : list.Model → tea.Msg → list.Model × tea.Cmd)
    (m : model) (w h : Int) :
    (model.Update Output listUpdate m (tea.Msg.WindowSizeMsg w h)).1.1.list.width = w ∧
    (model.Update Output listUpdate m (tea.Msg.WindowSizeMsg w h)).1.1.choice = m.choice ∧
    (model.Update Output listUpdate m (tea.Msg.WindowSizeMsg w h)).1.1.error = m.error ∧
    (model.Update Output listUpdate m (tea.Msg.WindowSizeMsg w h)).1.1.quitting = m.quitting ∧
    (model.Update Output listUpdate m (tea.Msg.WindowSizeMsg w h)).1.1.list.items
      = m.list.items ∧
    (model.Update Output listUpdate m (tea.Msg.WindowSizeMsg w h)).1.2 = tea.Cmd.nil ∧
    (model.Update Output listUpdate m (tea.Msg.WindowSizeMsg w h)).2 = [] := by
  simp [model.Update, list.Model.SetWidth]

/-- C18 as stated fails: for a model with an empty list whose quitting flag
is already set, `enter` leaves the model unchanged and its view is the
farewell text, not the list view. -/
theorem Update_enter_none_cancelled_view :
    cancelledEmpty.list.SelectedItem = none ∧
    (model.Update failingOutput idleList cancelledEmpty
      (tea.Msg.KeyMsg "enter".toList)).1.1 = cancelledEmpty ∧
    (model.Update failingOutput idleList cancelledEmpty
      (tea.Msg.KeyMsg "enter".toList)).1.1.View = Frame.quitText "Good bye".toList ∧
    (model.Update failingOutput idleList cancelledEmpty
      (tea.Msg.KeyMsg "enter".toList)).1.1.View ≠ Frame.listView cancelledEmpty.list := by
  decide

/-- C18 amended: for every model in the browsing state (choice and error
empty, not quitting) in which no entry is highlighted, `enter` starts no
subprocess, leaves the model, so its choice, error and quitting flag,
unchanged and returns the quit command; the view of the result is the list
view. -/
theorem Update_enter_none
    (Output : List GoString → Except GoString GoString)
    (listUpdate : list.Model → tea.Msg → list.Model × tea.Cmd)
    (m : model) (hchoice : m.choice = []) (herror : m.error = [])
    (hquit : m.quitting = false) (hsel : m.list.SelectedItem = none) :
    (model.Update Output listUpdate m (tea.Msg.KeyMsg "enter".toList)).2 = [] ∧
    (model.Update Output listUpdate m (tea.Msg.KeyMsg "enter".toList)).1.1 = m ∧
    (model.Update Output listUpdate m (tea.Msg.KeyMsg "enter".toList)).1.2 = tea.Cmd.Quit ∧
    (model.Update Output listUpdate m (tea.Msg.KeyMsg "enter".toList)).1.1.View
      = Frame.listView m.list := by
  simp [model.Update, model.View, enter_ne_cancel, hsel, hchoice, herror, hquit]

/-- Witness of C18: a filter that matches no entry. -/
theorem Update_enter_none_witness :
    browsingNoMatch.list.SelectedItem = none ∧
    (model.Update failingOutput idleList browsingNoMatch
      (tea.Msg.KeyMsg "enter".toList)).2 = [] ∧
    (model.Update failingOutput idleList browsingNoMatch
      (tea.Msg.KeyMsg "enter".toList)).1.1 = browsingNoMatch ∧
    (model.Update failingOutput idleList browsingNoMatch
      (tea.Msg.KeyMsg "enter".toList)).1.2 = tea.Cmd.Quit ∧
    (model.Update failingOutput idleList browsingNoMatch
      (tea.Msg.KeyMsg "enter".toList)).1.1.View = Frame.listView browsingNoMatch.list :=
  ⟨by decide, Update_enter_none failingOutput idleList browsingNoMatch rfl rfl rfl (by decide)⟩

/-! ## List entries -/

theorem main_loop_spec :
    ∀ (contexts : List context) (items : List item),
      main.loop contexts items
        = items ++ contexts.map (fun c => ⟨c.name, c.namespace_, c.selected⟩) := by
  intro contexts
  induction contexts with
  | nil => intro items; simp [main.loop]
  | cons c rest ih => intro items; simp [main.loop, ih]

/-- C17: the list entries built at startup correspond one to one and in
order to the records: there are as many entries as records, and the i-th
entry has as title the name, as description the namespace and as selected
flag the selected flag of the i-th record, and its filter value is the
name. -/
theorem main_items_spec (contexts : List context) :
    (main.items contexts).length = contexts.length ∧
    ∀ (i : Nat) (c : context), contexts.get? i = some c →
      ∃ it, (main.items contexts).get? i = some it ∧
        it.title = c.name ∧ it.desc = c.namespace_ ∧ it.selected = c.selected ∧
        it.FilterValue = c.name := by
  have h : main.items contexts
      = contexts.map (fun c => ⟨c.name, c.namespace_, c.selected⟩) := by
    simp [main.items, main_loop_spec]
  refine ⟨by simp [h], ?_⟩
  intro i c hc
  refine ⟨⟨c.name, c.namespace_, c.selected⟩, ?_, rfl, rfl, rfl, rfl⟩
  have hc1 : contexts[i]? = some c := by simpa using hc
  simp [h, hc1]

/-- C16: what `Render` writes is the row text under the treatment looked up
from the two flags alone, highlighted (the row index is the index of the
list) and selected. The four treatments have pairwise distinct styles, the
cursor prefix `> ` is applied exactly when the row is highlighted, and the
star border exactly when the entry is selected; both when both flags
hold. -/
theorem Render_treatment :
    (∀ (m : list.Model) (index : Int) (it : item),
      itemDelegate.Render m index it
        = ⟨(treatment (decide (index = m.Index)) it.selected).1,
           (treatment (decide (index = m.Index)) it.selected).2 ++ rowText index it.title⟩) ∧
    (∀ a b a1 b1 : Bool, (treatment a b).1 = (treatment a1 b1).1 → a = a1 ∧ b = b1) ∧
    (∀ a b : Bool, (treatment a b).2 = if a then "> ".toList else []) ∧
    (∀ a b : Bool, hasStarBorder (treatment a b).1 = b) := by
  refine ⟨?_, by decide, by decide, by decide⟩
  intro m index it
  by_cases hi : index = m.Index <;> cases hs : it.selected <;>
    simp [itemDelegate.Render, treatment, hi, hs]

/-! ## Context lister: amount of white space -/

/-- The record `parse_line` returns depends on the normalized line only. -/
theorem parse_line_congr (a b : GoString) (h : normalized a = normalized b) :
    parse_line a = parse_line b := by
  have hm : hasMarker a = hasMarker b := by
    rw [← HasPrefix_normalized, ← HasPrefix_normalized, h]
  have hf : lineFields a = lineFields b := by
    simp only [lineFields, unmarked, h]
  rw [parse_line_eq, parse_line_eq, hm, hf]

theorem isPerlSpace_of_space_tab (c : Char) (h : c = ' ' ∨ c = '\t') :
    regexp.isPerlSpace c = true := by
  rcases h with h | h <;> subst h <;> decide

theorem Laid_of_SpaceTabLaid :
    ∀ pairs : List (GoString × GoString), SpaceTabLaid pairs → Laid pairs := by
  intro pairs
  induction pairs with
  | nil => intro _; trivial
  | cons p rest ih =>
    intro h
    obtain ⟨t, w⟩ := p
    obtain ⟨ht, hts, hws, hne, hrest⟩ := h
    exact ⟨ht, hts, fun c hc => isPerlSpace_of_space_tab c (hws c hc), hne, ih hrest⟩

theorem map_fst_singleSpaced :
    ∀ ts : List GoString, (singleSpaced ts).map Prod.fst = ts := by
  intro ts
  induction ts with
  | nil => rfl
  | cons t ts ih =>
    cases ts with
    | nil => rfl
    | cons u ts => simp only [singleSpaced, List.map_cons, ih]

theorem layout_singleSpaced :
    ∀ ts : List GoString, layout [] (singleSpaced ts) = joined ts := by
  intro ts
  induction ts with
  | nil => rfl
  | cons t ts ih =>
    cases ts with
    | nil => simp [singleSpaced, layout, joined]
    | cons u ts =>
      simp only [singleSpaced, layout, joined, List.nil_append]
      rw [layout_lead, ih]
      rfl

theorem Laid_singleSpaced :
    ∀ ts : List GoString, (∀ t ∈ ts, t ≠ [] ∧ ∀ c ∈ t, unicode.IsSpace c = false) →
      Laid (singleSpaced ts) := by
  intro ts
  induction ts with
  | nil => intro _; trivial
  | cons t ts ih =>
    intro h
    obtain ⟨ht, hts⟩ := h t (List.mem_cons_self _ _)
    cases ts with
    | nil => exact ⟨ht, hts, by simp, by simp, trivial⟩
    | cons u ts =>
      refine ⟨ht, hts, ?_, fun _ => by simp, ih (fun v hv => h v (List.mem_cons_of_mem _ hv))⟩
      intro c hc
      simp only [List.mem_singleton] at hc
      subst hc; decide

/-- The tokens joined by single spaces are their own normalized form. -/
theorem normalized_joined (ts : List GoString)
    (h : ∀ t ∈ ts, t ≠ [] ∧ ∀ c ∈ t, unicode.IsSpace c = false) :
    normalized (joined ts) = joined ts := by
  have := normalized_layout [] (singleSpaced ts) (by simp) (Laid_singleSpaced ts h)
  rwa [layout_singleSpaced, map_fst_singleSpaced] at this

/-- C15: `parse_line` does not depend on the amount of white space. For
non-empty tokens free of white space, the line made of a run of spaces and
tabs, then the tokens separated by non-empty runs of spaces and tabs, then a
run of spaces and tabs, gives the same record as the tokens joined by single
spaces. -/
theorem parse_line_whitespace (lead : GoString) (pairs : List (GoString × GoString))
    (hlead : ∀ c ∈ lead, c = ' ' ∨ c = '\t') (hp : SpaceTabLaid pairs) :
    parse_line (layout lead pairs) = parse_line (joined (pairs.map Prod.fst)) := by
  have hl : Laid pairs := Laid_of_SpaceTabLaid pairs hp
  apply parse_line_congr
  rw [normalized_layout lead pairs (fun c hc => isPerlSpace_of_space_tab c (hlead c hc)) hl,
    normalized_joined _ (Laid_tokens pairs hl)]

/-- Witness of C15: four tokens between runs of spaces and tabs. -/
theorem parse_line_whitespace_witness :
    parse_line " \t*  ctx-a \t cluster-a\tuser-a   ns-a \t".toList
      = parse_line "* ctx-a cluster-a user-a ns-a".toList :=
  parse_line_whitespace " \t".toList
    [("*".toList, "  ".toList), ("ctx-a".toList, " \t ".toList),
     ("cluster-a".toList, "\t".toList), ("user-a".toList, "   ".toList),
     ("ns-a".toList, " \t".toList)]
    (by decide) (by trivial)

end Kubeenv
